import Mathlib

/-!
longpoll: the connection registry and the fan-out writer.

A verification development for `longpoll.go`.  The Go program keeps a
`map[int64]*conn` of hijacked network connections behind one mutex.
`Longpoller.Write` ranges over the map, writes the payload to every
connection and evicts the ones whose write fails; `Longpoller.ServeHTTP`
hijacks the connection of a request, writes a response header to it,
registers it and then waits on the connection's `done` channel.

The embedding:

* `net.Conn` values and `chan bool` values are handles (`Nat`).
* Everything the program does to the outside world (a write to a transport,
  a close, a log line, an `http.Error` response, a channel send or receive)
  is appended, in program order, to the `events` field of the state.
* What the outside world answers (whether a transport write fails, what
  `Hijack` returns, the order in which `range` walks the map) is an argument
  of the function making the call.
* `Write` and `ServeHTTP` are first given as functions: the effect of one
  call that runs undisturbed.  The concurrent system (`Sys`, `step`) then
  schedules their pieces: `mu` serialises the iterations of a `Write` loop
  and the registration of `ServeHTTP`; the part of `ServeHTTP` before the
  lock, and the receive on `done` with the deferred close, take no lock and
  may run between any two iterations of a `Write` loop.
* `int64` is `Int` with explicit wrap-around (`wrap64`).
-/

namespace Longpoll

/-- One element of a Go `[]byte`. -/
abbrev Byte := UInt8

/-- Result of `net.Conn.Write(p)`: `ok` is `(len(p), nil)`; `fail n err` is
`(n, err)` with `err != nil`, after `n` bytes went out. -/
inductive WriteOutcome where
  | ok
  | fail (n : Nat) (err : String)
  deriving DecidableEq, Repr

/-- Whether the error of a write outcome is non-nil. -/
def WriteOutcome.failed : WriteOutcome → Bool
  | .ok => false
  | .fail _ _ => true

/-- The Go struct `conn`: the transport and the completion channel. -/
structure conn where
  nc : Nat
  done : Nat
  deriving DecidableEq, Repr

/-- An effect of the program on its environment. -/
inductive Event where
  /-- A call `nc.Write(p)` and what it returned. -/
  | connWrite (nc : Nat) (p : List Byte) (res : WriteOutcome)
  /-- A call `nc.Close()`. -/
  | connClose (nc : Nat)
  /-- A completed send `ch <- true`. -/
  | chanSend (ch : Nat)
  /-- A completed receive `<-ch`. -/
  | chanRecv (ch : Nat)
  /-- A line printed through `logf`, on `Logger` or on the standard logger. -/
  | logf (logger : Option Nat) (msg : String)
  /-- A call `http.Error(w, body, code)`. -/
  | httpError (code : Nat) (body : String)
  deriving DecidableEq, Repr

/-- The Go struct `Longpoller`.  The field `mu` has no counterpart: the
sections it guards are single transitions. -/
structure Longpoller where
  /-- Field `Logger`; `none` is nil. -/
  Logger : Option Nat
  /-- Field `nextid`, an `int64`. -/
  nextid : Int
  /-- Field `conns`, a `map[int64]*conn`, as a list of its entries. -/
  conns : List (Int × conn)
  deriving DecidableEq, Repr

/-- A `Longpoller` together with what surrounds it: the buffers of the `done`
channels made so far, the `ServeHTTP` calls suspended at `<-done`, and the
effects so far. -/
structure State extends Longpoller where
  /-- Number of buffered values of each channel made by `make(chan bool, 1)`;
  a channel handle is an index into this list. -/
  chans : List Nat
  /-- The `ServeHTTP` calls suspended at `<-done`, each with its `nc` and
  `done`. -/
  parked : List conn
  /-- The effects so far, oldest first. -/
  events : List Event
  deriving DecidableEq, Repr

/-- Go `New()`: nil logger, counter 0, empty map; no channel made, no call
suspended, no effect yet. -/
def New : State :=
  { Logger := none, nextid := 0, conns := [], chans := [], parked := [], events := [] }

/-- Two's-complement wrap-around of `int64` arithmetic. -/
def wrap64 (x : Int) : Int := (x + 2 ^ 63) % 2 ^ 64 - 2 ^ 63

/-- Go `delete(m, k)`. -/
def mapDelete (m : List (Int × conn)) (k : Int) : List (Int × conn) :=
  m.filter (fun e => e.1 ≠ k)

/-- Go `m[k] = v`: the entry under `k`, if any, is replaced. -/
def mapSet (m : List (Int × conn)) (k : Int) (v : conn) : List (Int × conn) :=
  mapDelete m k ++ [(k, v)]

/-- Whether `k` is a key of the map. -/
def mapHas (m : List (Int × conn)) (k : Int) : Bool :=
  m.any (fun e => e.1 = k)

/-- The order in which one `range` statement produces the entries of a map:
Go leaves it unspecified, so it is any rearrangement of the entries. -/
structure RangeOrder where
  order : List (Int × conn) → List (Int × conn)
  perm : ∀ l, (order l).Perm l

/-- The order that walks the entries as they are listed. -/
def RangeOrder.listed : RangeOrder := ⟨id, fun l => List.Perm.refl l⟩

/-- The order that walks the entries backwards. -/
def RangeOrder.backwards : RangeOrder := ⟨List.reverse, fun l => List.reverse_perm l⟩

/-- Append one effect to the trace. -/
def State.emit (s : State) (e : Event) : State :=
  { s with events := s.events ++ [e] }

/-- Go `lp.logf`: prints on `lp.Logger`, or on the standard logger when it is
nil. -/
def State.logf (s : State) (msg : String) : State :=
  s.emit (.logf s.Logger msg)

/-- Body of the `for id, c := range lp.conns` loop of `Write` for the entry
`e`.  An entry deleted before the iteration reaches it is not produced.
`none`: the send `c.done <- true` cannot complete (the buffer of capacity 1 is
full, or the channel is nil), so the call stays blocked holding the lock. -/
def Write.body (p : List Byte) (env : Nat → WriteOutcome) (e : Int × conn)
    (s : State) : Option State :=
  if mapHas s.conns e.1 then
    let s1 := s.emit (.connWrite e.2.nc p (env e.2.nc))
    if (env e.2.nc).failed then
      let s2 := { s1 with conns := mapDelete s1.conns e.1 }
      match s2.chans[e.2.done]? with
      | some 0 => some ({ s2 with chans := s2.chans.set e.2.done 1 }.emit (.chanSend e.2.done))
      | _ => none
    else some s1
  else some s

/-- The `range` loop of `Write` over the entries in the order given. -/
def Write.loop (p : List Byte) (env : Nat → WriteOutcome) :
    List (Int × conn) → State → Option State
  | [], s => some s
  | e :: es, s => (Write.body p env e s).bind (Write.loop p env es)

/-- Go `(*Longpoller).Write`.  `env nc` is what `nc.Write(p)` returns during
this call, `ord` the order of the `range`.  The result is the state after the
call with the pair `(n, err)`; `none` when the call never returns. -/
def Write (p : List Byte) (env : Nat → WriteOutcome) (ord : RangeOrder) (s : State) :
    Option (State × Nat × Option String) :=
  (Write.loop p env (ord.order s.conns) s).map (fun s1 => (s1, p.length, none))

/-- The `http.ResponseWriter` handed to `ServeHTTP`. -/
inductive ResponseWriter where
  /-- A writer that is not an `http.Hijacker`. -/
  | plain
  /-- An `http.Hijacker` whose `Hijack()` returns `(nc, _, err)`; `none` is
  nil. -/
  | hijacker (nc : Option Nat) (err : Option String)
  deriving DecidableEq, Repr

/-- How a call of `ServeHTTP` that runs undisturbed ends, or suspends. -/
inductive Exit where
  /-- The call returned. -/
  | returned
  /-- The call registered its connection under `id` and is suspended at
  `<-done`. -/
  | parked (id : Int)
  /-- The call panicked (nil dereference). -/
  | panicked
  deriving DecidableEq, Repr

/-- Go `(*Longpoller).ServeHTTP` up to `<-done`, as one call that runs
undisturbed (lines 53-91).  `preamble` is what
`(&http.Response{...}).Write` puts on the wire and `hdr` what the transport
answers to it.  `defer nc.Close()` is registered right after `Hijack`, so every
`return` below it closes `nc`; with a nil `nc` the `defer` statement itself
panics. -/
def ServeHTTP (preamble : List Byte) (w : ResponseWriter) (hdr : WriteOutcome)
    (s : State) : State × Exit :=
  match w with
  | .plain =>
    (((s.emit (.httpError 500 "Could not process request")).logf
      "longpoll: received a response writer which was not a hijacker"), .returned)
  | .hijacker nc err =>
    let s1 := match err with
      | some e => s.logf ("longpoll: hijacking error: " ++ e)
      | none => s
    match nc with
    | none => (s1, .panicked)
    | some nc =>
      let s2 := s1.emit (.connWrite nc preamble hdr)
      match hdr with
      | .fail _ e =>
        (((s2.logf ("longpoll: error writing the response header: " ++ e)).emit
          (.connClose nc)), .returned)
      | .ok =>
        let done := s2.chans.length
        let s3 := { s2 with chans := s2.chans ++ [0] }
        let id := s3.nextid
        let s4 := { s3 with nextid := wrap64 (s3.nextid + 1),
                            conns := mapSet s3.conns id ⟨nc, done⟩ }
        ({ s4 with parked := s4.parked ++ [⟨nc, done⟩] }, .parked id)

/-- The rest of the `i`-th suspended `ServeHTTP` call: the receive `<-done`,
the deferred `nc.Close()`, the return.  `none` while the channel is empty. -/
def resume (i : Nat) (s : State) : Option State :=
  match s.parked[i]? with
  | none => none
  | some h =>
    match s.chans[h.done]? with
    | some (k + 1) =>
      some (({ s with chans := s.chans.set h.done k,
                      parked := s.parked.eraseIdx i }.emit (.chanRecv h.done)).emit
        (.connClose h.nc))
    | _ => none

/-- How a call of `ServeHTTP` leaves the part that runs before it asks for
`mu` (lines 53-81). -/
inductive Head where
  /-- The call returned. -/
  | returned
  /-- The call panicked (nil dereference). -/
  | panicked
  /-- The header is written on the transport `nc`; the call goes on to make
  its channel and to lock `mu`. -/
  | waiting (nc : Nat)
  deriving DecidableEq, Repr

/-- Go `(*Longpoller).ServeHTTP`, lines 53-81: the part before the lock. -/
def ServeHTTP.head (preamble : List Byte) (w : ResponseWriter) (hdr : WriteOutcome)
    (s : State) : State × Head :=
  match w with
  | .plain =>
    (((s.emit (.httpError 500 "Could not process request")).logf
      "longpoll: received a response writer which was not a hijacker"), .returned)
  | .hijacker nc err =>
    let s1 := match err with
      | some e => s.logf ("longpoll: hijacking error: " ++ e)
      | none => s
    match nc with
    | none => (s1, .panicked)
    | some nc =>
      let s2 := s1.emit (.connWrite nc preamble hdr)
      match hdr with
      | .fail _ e =>
        (((s2.logf ("longpoll: error writing the response header: " ++ e)).emit
          (.connClose nc)), .returned)
      | .ok => (s2, .waiting nc)

/-- Go `(*Longpoller).ServeHTTP`, lines 83-91: `make(chan bool, 1)` and the
registration under `mu`; the call is then suspended at `<-done`.  The result
carries the identifier `id`. -/
def ServeHTTP.register (nc : Nat) (s : State) : State × Int :=
  let done := s.chans.length
  let s3 := { s with chans := s.chans ++ [0] }
  let id := s3.nextid
  let s4 := { s3 with nextid := wrap64 (s3.nextid + 1),
                      conns := mapSet s3.conns id ⟨nc, done⟩ }
  ({ s4 with parked := s4.parked ++ [⟨nc, done⟩] }, id)

/-- The concurrent system: the state, the `Write` call that holds `mu` (with
its payload and the entries its `range` has still to produce), and the
transports of the `ServeHTTP` calls that wrote their header and wait for
`mu`. -/
structure Sys extends State where
  /-- The `Write` call inside its loop, if any; `mu` is locked exactly then. -/
  pass : Option (List Byte × List (Int × conn))
  /-- Transports of the `ServeHTTP` calls between line 81 and line 85. -/
  entering : List Nat
  deriving DecidableEq, Repr

/-- The system right after `New()`: nothing locked, no call under way. -/
def boot : Sys := { New with pass := none, entering := [] }

/-- The system in the registry state `s` with `mu` free and the `ServeHTTP`
calls on the transports `ent` waiting for it. -/
def Sys.idle (s : State) (ent : List Nat) : Sys := { s with pass := none, entering := ent }

/-- One transition of the system.  `mu` serialises the loop of `Write` and
the registration of `ServeHTTP` against each other; everything else (the part
of `ServeHTTP` before the lock, the receive on `done` with the deferred close)
takes no lock and is scheduled freely, also between two iterations of a
`Write` loop. -/
inductive Action where
  /-- A `ServeHTTP` call runs lines 53-81. -/
  | serve (w : ResponseWriter) (hdr : WriteOutcome)
  /-- The `i`-th waiting `ServeHTTP` call runs lines 83-91 and suspends. -/
  | register (i : Nat)
  /-- A `Write(p)` call locks `mu` and starts its `range`. -/
  | lock (p : List Byte) (ord : RangeOrder)
  /-- The next iteration of the loop under way; `res` is what `nc.Write(p)`
  returns. -/
  | iter (res : WriteOutcome)
  /-- The loop is over: `Write` unlocks `mu` and returns `(len(p), nil)`. -/
  | unlock
  /-- The `i`-th suspended `ServeHTTP` call receives, closes and returns. -/
  | resume (i : Nat)

/-- Perform one transition; `none` when it cannot be taken. -/
def step (preamble : List Byte) : Action → Sys → Option Sys
  | .serve w hdr, t =>
    match ServeHTTP.head preamble w hdr t.toState with
    | (s1, .waiting nc) => some { t with toState := s1, entering := t.entering ++ [nc] }
    | (s1, _) => some { t with toState := s1 }
  | .register i, t =>
    match t.pass, t.entering[i]? with
    | none, some nc =>
      some { t with toState := (ServeHTTP.register nc t.toState).1,
                    entering := t.entering.eraseIdx i }
    | _, _ => none
  | .lock p ord, t =>
    match t.pass with
    | none => some { t with pass := some (p, ord.order t.conns) }
    | some _ => none
  | .iter res, t =>
    match t.pass with
    | some (p, e :: es) =>
      (Write.body p (fun _ => res) e t.toState).map
        (fun s1 => { t with toState := s1, pass := some (p, es) })
    | _ => none
  | .unlock, t =>
    match t.pass with
    | some (_, []) => some { t with pass := none }
    | _ => none
  | .resume i, t => (resume i t.toState).map (fun s1 => { t with toState := s1 })

/-- Perform the transitions in order. -/
def run (preamble : List Byte) : List Action → Sys → Option Sys
  | [], t => some t
  | a :: as, t => (step preamble a t).bind (run preamble as)

/-- The transitions of one whole `Write(p)` call on the registry `m`: lock,
one iteration per entry in the order of the `range`, unlock. -/
def passOf (p : List Byte) (env : Nat → WriteOutcome) (ord : RangeOrder)
    (m : List (Int × conn)) : List Action :=
  .lock p ord :: ((ord.order m).map (fun e => Action.iter (env e.2.nc)) ++ [.unlock])

/-- Effects of one iteration of the loop of `Write` on the entry `e`. -/
def Write.effects (p : List Byte) (env : Nat → WriteOutcome) (e : Int × conn) : List Event :=
  .connWrite e.2.nc p (env e.2.nc) ::
    (if (env e.2.nc).failed then [.chanSend e.2.done] else [])

/-- The channel buffers after the completion signals of the failing entries
among `es` were sent. -/
def Write.signal (env : Nat → WriteOutcome) : List (Int × conn) → List Nat → List Nat
  | [], c => c
  | e :: es, c =>
    Write.signal env es (if (env e.2.nc).failed then c.set e.2.done 1 else c)

/-- What a registry state of the program satisfies: the keys of the map are
distinct, and the `done` channels of the entries are distinct channels with an
empty buffer. -/
structure Inv (s : State) : Prop where
  keys : (s.conns.map Prod.fst).Nodup
  dones : (s.conns.map (fun e => e.2.done)).Nodup
  ready : ∀ e ∈ s.conns, s.chans[e.2.done]? = some 0

/-- The calls `nc.Write(p)` in a trace, each with its transport, its argument
and its result. -/
def connWrites : List Event → List (Nat × List Byte × WriteOutcome)
  | [] => []
  | .connWrite nc p res :: evs => (nc, p, res) :: connWrites evs
  | _ :: evs => connWrites evs

/-- The bytes a write call put on the transport: all of `p` when it succeeded,
the first `n` when it returned `(n, err)`. -/
def WriteOutcome.sent (p : List Byte) : WriteOutcome → List Byte
  | .ok => p
  | .fail n _ => p.take n

/-- The bytes the transport `nc` has received over a trace. -/
def delivered (nc : Nat) : List Event → List Byte
  | [] => []
  | .connWrite c p res :: evs => (if c = nc then res.sent p else []) ++ delivered nc evs
  | _ :: evs => delivered nc evs

/-- Number of completed sends on the channel `ch` in a trace. -/
def sendCount (ch : Nat) (evs : List Event) : Nat := evs.count (.chanSend ch)

/-- Number of calls `nc.Close()` in a trace. -/
def closeCount (nc : Nat) (evs : List Event) : Nat := evs.count (.connClose nc)

/-- What the trace of a state says about the completion signals: no channel
was sent on twice, the channels of the registered connections were never sent
on, and neither were channels that do not exist yet. -/
structure Signals (s : State) : Prop where
  once : ∀ ch, sendCount ch s.events ≤ 1
  unsent : ∀ e ∈ s.conns, sendCount e.2.done s.events = 0
  unmade : ∀ ch, s.chans.length ≤ ch → sendCount ch s.events = 0

/-- The transport an effect acts on, if any. -/
def Event.transport : Event → Option Nat
  | .connWrite nc _ _ => some nc
  | .connClose nc => some nc
  | _ => none

/-- Whether the transition is a `ServeHTTP` call whose `Hijack` hands over the
transport `nc`. -/
def Action.hijacks (nc : Nat) : Action → Bool
  | .serve (.hijacker (some c) _) _ => decide (c = nc)
  | _ => false

/-- Whether the transport handed over by the `Hijack` of a `ServeHTTP` call
is one the program has not acted on before (a hijacked connection is a new
connection); transitions that hijack nothing pass. -/
def Action.fresh (t : Sys) : Action → Bool
  | .serve (.hijacker (some nc) _) _ => decide (some nc ∉ t.events.map Event.transport)
  | _ => true

/-- Perform the transitions in order, every hijacked transport being new. -/
def runFresh (preamble : List Byte) : List Action → Sys → Option Sys
  | [], t => some t
  | a :: as, t => if a.fresh t then (step preamble a t).bind (runFresh preamble as) else none

/-- What a state of the system satisfies: the registry invariant, and the
entries a `Write` loop has still to produce are distinct entries of the
map. -/
structure SysInv (t : Sys) : Prop where
  inv : Inv t.toState
  todo : ∀ p es, t.pass = some (p, es) → es.Nodup ∧ ∀ e ∈ es, e ∈ t.conns

/-- How the `ServeHTTP` calls own the transports: every registered connection
has its call suspended; the suspended and the waiting calls hold distinct
transports, each of which the program has acted on (it wrote the header) and
none of which was closed; no transport was closed twice; the suspended calls
wait on distinct channels that exist. -/
structure Owned (t : Sys) : Prop where
  held : ∀ e ∈ t.conns, e.2 ∈ t.parked
  distinct : (t.parked.map (fun h => h.nc) ++ t.entering).Nodup
  seen : ∀ nc ∈ t.parked.map (fun h => h.nc) ++ t.entering,
    some nc ∈ t.events.map Event.transport
  unclosed : ∀ nc ∈ t.parked.map (fun h => h.nc) ++ t.entering, closeCount nc t.events = 0
  once : ∀ nc, closeCount nc t.events ≤ 1
  dones : (t.parked.map (fun h => h.done)).Nodup
  made : ∀ h ∈ t.parked, h.done < t.chans.length

/-- The connection `c` was evicted and signalled: it is not registered, its
channel exists, and as long as its `ServeHTTP` call is suspended the signal
sits in the channel. -/
structure Released (c : conn) (t : Sys) : Prop where
  out : ∀ x ∈ t.conns, x.2 ≠ c
  made : c.done < t.chans.length
  signal : c ∈ t.parked → t.chans[c.done]? = some 1

/-- The keys under which the map `m` holds the connection whose channel is
`ch`. -/
def keysOf (m : List (Int × conn)) (ch : Nat) : List Int :=
  (m.filter (fun e => e.2.done = ch)).map Prod.fst

/-- The identifiers under which the registry holds the connections admitted
in a run, read off the registry right after each registration, in the order
of the registrations. -/
def assigned (preamble : List Byte) : List Action → Sys → List Int
  | [], _ => []
  | a :: as, t =>
    match step preamble a t with
    | none => []
    | some t1 =>
      (match a with
        | .register _ => keysOf t1.conns t.chans.length
        | _ => []) ++ assigned preamble as t1

/-- The number of registrations (admissions) completed in a run. -/
def admitted (preamble : List Byte) : List Action → Sys → Nat
  | [], _ => 0
  | a :: as, t =>
    match step preamble a t with
    | none => 0
    | some t1 =>
      (match a with
        | .register _ => 1
        | _ => 0) + admitted preamble as t1

/-- No connection registered, no `ServeHTTP` call under way, `mu` free. -/
def Sys.quiet (t : Sys) : Prop :=
  t.conns = [] ∧ t.parked = [] ∧ t.entering = [] ∧ t.pass = none

/-! ## Sample inputs -/

/-- Sample bytes standing for the response header on the wire. -/
def sampleHeader : List Byte := [72, 84, 84, 80, 47, 49, 46, 49, 32, 50, 48, 48]

/-- The payload `hello`. -/
def hello : List Byte := [104, 101, 108, 108, 111]

/-- The payload `x`. -/
def payloadX : List Byte := [120]

/-- Every transport accepts the write. -/
def allOk : Nat → WriteOutcome := fun _ => .ok

/-- Every transport fails the write. -/
def allFail : Nat → WriteOutcome := fun _ => .fail 0 "broken pipe"

/-- The transport `nc` fails the write, the others accept it. -/
def onlyFails (nc : Nat) : Nat → WriteOutcome :=
  fun c => if c = nc then .fail 0 "broken pipe" else .ok

/-- A request whose hijack succeeds with the transport `nc`. -/
def hijackOk (nc : Nat) : ResponseWriter := .hijacker (some nc) none

/-- The state after `New()` and the admission of A (transport 10). -/
def admittedA : State := (ServeHTTP sampleHeader (hijackOk 10) .ok New).1

/-- The state after `New()` and the admissions of A (transport 10) and B
(transport 11). -/
def admittedAB : State := (ServeHTTP sampleHeader (hijackOk 11) .ok admittedA).1

/-- The life of one connection on the transport `i`: admitted, evicted by a
`Write` of `x` whose write to it fails, its handler resumed. -/
def cycle (i : Nat) : List Action :=
  [.serve (hijackOk i) .ok, .register 0, .lock payloadX .listed,
   .iter (.fail 0 "broken pipe"), .unlock, .resume 0]

/-- A run of `n` connections one after the other, the `i`-th on the new
transport `i`; the registry never holds more than one of them. -/
def churn (n : Nat) : List Action := (List.range n).flatMap cycle

/-- The admission of A (transport 10). -/
def admitA : List Action := [.serve (hijackOk 10) .ok, .register 0]

/-- The admissions of A (transport 10) and B (transport 11). -/
def admitAB : List Action :=
  [.serve (hijackOk 10) .ok, .serve (hijackOk 11) .ok, .register 0, .register 0]

/-- The admission of A (transport 10), then a `Write` of `x` that locks and
runs the iteration on A, whose write fails. -/
def evictA : List Action :=
  admitA ++ [.lock payloadX .listed, .iter (.fail 0 "broken pipe")]

/-- The system after `New()`, the admission of A (transport 10) and the
iteration of a `Write` of `x` in which the write to A failed; `mu` is still
held. -/
def evictingA : Sys :=
  { Logger := none, nextid := 1, conns := [], chans := [1], parked := [⟨10, 0⟩],
    events := [.connWrite 10 sampleHeader .ok,
               .connWrite 10 payloadX (.fail 0 "broken pipe"),
               .chanSend 0],
    pass := some (payloadX, []), entering := [] }

/-- The admission of A (transport 10), then a `Write` of `x` that has locked
`mu` and is about to run its iteration on A. -/
def lockA : List Action := admitA ++ [.lock payloadX .listed]

/-- The system after `lockA` from `New()`. -/
def lockedA : Sys :=
  { Logger := none, nextid := 1, conns := [(0, ⟨10, 0⟩)], chans := [0], parked := [⟨10, 0⟩],
    events := [.connWrite 10 sampleHeader .ok],
    pass := some (payloadX, [(0, ⟨10, 0⟩)]), entering := [] }

/-! ## Properties of the loop of `Write` -/

theorem mem_eq_of_key {m : List (Int × conn)} (hk : (m.map Prod.fst).Nodup)
    {x y : Int × conn} (hx : x ∈ m) (hy : y ∈ m) (h : x.1 = y.1) : x = y :=
  List.inj_on_of_nodup_map hk hx hy h

theorem mem_eq_of_done {m : List (Int × conn)} (hk : (m.map (fun e => e.2.done)).Nodup)
    {x y : Int × conn} (hx : x ∈ m) (hy : y ∈ m) (h : x.2.done = y.2.done) : x = y :=
  List.inj_on_of_nodup_map hk hx hy h

theorem mapHas_of_mem {m : List (Int × conn)} {e : Int × conn} (h : e ∈ m) :
    mapHas m e.1 = true := by
  simp only [mapHas, List.any_eq_true, decide_eq_true_eq]
  exact ⟨e, h, rfl⟩

theorem Write.loop_spec (p : List Byte) (env : Nat → WriteOutcome) :
    ∀ (es : List (Int × conn)) (s : State), Inv s → es.Nodup → (∀ e ∈ es, e ∈ s.conns) →
      Write.loop p env es s = some
        { s with conns := s.conns.filter (fun e => !(decide (e ∈ es) && (env e.2.nc).failed)),
                 chans := Write.signal env es s.chans,
                 events := s.events ++ es.flatMap (Write.effects p env) } := by
  intro es
  induction es with
  | nil => intro s _ _ _; simp [Write.loop, Write.signal]
  | cons e es ih =>
    intro s hinv hnd hsub
    have he : e ∈ s.conns := hsub e (List.mem_cons_self _ _)
    have hne : e ∉ es := (List.nodup_cons.mp hnd).1
    have hnd1 : es.Nodup := (List.nodup_cons.mp hnd).2
    simp only [Write.loop, Write.body, mapHas_of_mem he, if_true]
    by_cases hf : (env e.2.nc).failed = true
    · have hr : s.chans[e.2.done]? = some 0 := hinv.ready e he
      have hsub1 : ∀ x ∈ es, x ∈ mapDelete s.conns e.1 := by
        intro x hx
        have hxs : x ∈ s.conns := hsub x (List.mem_cons_of_mem _ hx)
        simp only [mapDelete, List.mem_filter, decide_eq_true_eq, ne_eq]
        refine ⟨hxs, fun h => hne ?_⟩
        rw [← mem_eq_of_key hinv.keys hxs he h]; exact hx
      have hinv1 : Inv { s with conns := mapDelete s.conns e.1,
                                chans := s.chans.set e.2.done 1,
                                events := s.events ++ [Event.connWrite e.2.nc p (env e.2.nc)]
                                  ++ [Event.chanSend e.2.done] } := by
        refine ⟨?_, ?_, ?_⟩
        · exact (hinv.keys.sublist ((List.filter_sublist _).map _))
        · exact (hinv.dones.sublist ((List.filter_sublist _).map _))
        · intro x hx
          simp only [mapDelete, List.mem_filter, decide_eq_true_eq, ne_eq] at hx
          have hd : e.2.done ≠ x.2.done := fun h =>
            hx.2 (congrArg Prod.fst (mem_eq_of_done hinv.dones hx.1 he h.symm))
          simp only [List.getElem?_set_ne hd]
          exact hinv.ready x hx.1
      simp only [hf, if_true, State.emit, hr, Option.some_bind]
      rw [ih _ hinv1 hnd1 hsub1]
      simp only [Write.signal, hf, if_true, List.flatMap_cons, Write.effects,
        List.append_assoc, List.singleton_append, List.cons_append, List.nil_append,
        mapDelete, List.filter_filter]
      congr 3
      apply List.filter_congr
      intro x hx
      by_cases hxe : x = e
      · subst hxe; simp [hf]
      · have : x.1 ≠ e.1 := fun h => hxe (mem_eq_of_key hinv.keys hx he h)
        simp [hxe, this]
    · have hf0 : (env e.2.nc).failed = false := by simpa using hf
      have hinv1 : Inv (s.emit (Event.connWrite e.2.nc p (env e.2.nc))) :=
        ⟨hinv.keys, hinv.dones, hinv.ready⟩
      simp only [hf0, Bool.false_eq_true, if_false, Option.some_bind]
      rw [ih _ hinv1 hnd1 (fun x hx => hsub x (List.mem_cons_of_mem _ hx))]
      simp only [Write.signal, hf0, Bool.false_eq_true, if_false, List.flatMap_cons,
        Write.effects, List.append_assoc, List.singleton_append, List.cons_append,
        List.nil_append, State.emit]
      congr 3
      apply List.filter_congr
      intro x hx
      by_cases hxe : x = e
      · subst hxe; simp [hf0]
      · simp [hxe]

theorem Inv.nodup {s : State} (h : Inv s) : s.conns.Nodup :=
  List.Nodup.of_map _ h.keys

/-- Closed form of `Write` on a registry state. -/
theorem Write_spec (p : List Byte) (env : Nat → WriteOutcome) (ord : RangeOrder)
    (s : State) (h : Inv s) :
    Write p env ord s = some
      ({ s with conns := s.conns.filter (fun e => !(env e.2.nc).failed),
                chans := Write.signal env (ord.order s.conns) s.chans,
                events := s.events ++ (ord.order s.conns).flatMap (Write.effects p env) },
        p.length, none) := by
  have hp := ord.perm s.conns
  have hnd : (ord.order s.conns).Nodup := hp.nodup_iff.mpr h.nodup
  have hsub : ∀ e ∈ ord.order s.conns, e ∈ s.conns := fun e he => hp.mem_iff.mp he
  simp only [Write, Write.loop_spec p env _ s h hnd hsub, Option.map_some']
  congr 4
  apply List.filter_congr
  intro x hx
  simp [hp.mem_iff.mpr hx]

theorem connWrites_append (a b : List Event) :
    connWrites (a ++ b) = connWrites a ++ connWrites b := by
  induction a with
  | nil => rfl
  | cons e a ih => cases e <;> simp [connWrites, ih]

theorem delivered_append (nc : Nat) (a b : List Event) :
    delivered nc (a ++ b) = delivered nc a ++ delivered nc b := by
  induction a with
  | nil => rfl
  | cons e a ih => cases e <;> simp [delivered, ih]

theorem connWrites_effects (p : List Byte) (env : Nat → WriteOutcome)
    (es : List (Int × conn)) :
    connWrites (es.flatMap (Write.effects p env)) =
      es.map (fun e => (e.2.nc, p, env e.2.nc)) := by
  induction es with
  | nil => rfl
  | cons e es ih =>
    simp only [List.flatMap_cons, connWrites_append, ih, List.map_cons, Write.effects]
    by_cases hf : (env e.2.nc).failed = true <;> simp [connWrites, hf]

theorem delivered_effects_of_not_mem (p : List Byte) (env : Nat → WriteOutcome) (nc : Nat)
    (es : List (Int × conn)) (h : nc ∉ es.map (fun e => e.2.nc)) :
    delivered nc (es.flatMap (Write.effects p env)) = [] := by
  induction es with
  | nil => rfl
  | cons e es ih =>
    simp only [List.map_cons, List.mem_cons, not_or] at h
    simp only [List.flatMap_cons, delivered_append, ih h.2, List.append_nil, Write.effects]
    have hne : e.2.nc ≠ nc := fun h1 => h.1 h1.symm
    by_cases hf : (env e.2.nc).failed = true <;> simp [delivered, hf, hne]

theorem delivered_effects_of_mem (p : List Byte) (env : Nat → WriteOutcome)
    (es : List (Int × conn)) (hnd : (es.map (fun e => e.2.nc)).Nodup)
    (e : Int × conn) (he : e ∈ es) :
    delivered e.2.nc (es.flatMap (Write.effects p env)) = (env e.2.nc).sent p := by
  induction es with
  | nil => cases he
  | cons x es ih =>
    simp only [List.map_cons, List.nodup_cons] at hnd
    simp only [List.flatMap_cons, delivered_append]
    rcases List.mem_cons.mp he with rfl | hmem
    · rw [delivered_effects_of_not_mem p env _ es hnd.1]
      simp only [Write.effects]
      by_cases hf : (env e.2.nc).failed = true <;> simp [delivered, hf]
    · have hne : x.2.nc ≠ e.2.nc := fun h1 =>
        hnd.1 (h1 ▸ List.mem_map_of_mem (fun e => e.2.nc) hmem)
      rw [ih hnd.2 hmem]
      simp only [Write.effects]
      by_cases hf : (env x.2.nc).failed = true <;> simp [delivered, hf, hne]

/-! ## The fan-out writer -/

theorem inv_admittedA : Inv admittedA := ⟨by decide, by decide, by decide⟩

theorem inv_admittedAB : Inv admittedAB := ⟨by decide, by decide, by decide⟩

/-- C1: on every registry state, for every payload `p` and whatever the
transports answer (`env` makes none, some or all of them fail), `Write`
returns, and returns exactly `(len(p), nil)`. -/
theorem Write_returns_len_nil (p : List Byte) (env : Nat → WriteOutcome) (ord : RangeOrder)
    (s : State) (h : Inv s) :
    ∃ s1, Write p env ord s = some (s1, p.length, none) :=
  ⟨_, Write_spec p env ord s h⟩

theorem Write_returns_len_nil_witness :
    Inv admittedAB ∧ ∃ s1, Write hello allFail .backwards admittedAB = some (s1, 5, none) :=
  ⟨inv_admittedAB, Write_returns_len_nil hello allFail .backwards admittedAB inv_admittedAB⟩

/-- C2: `Write(p)` issues exactly one write call per connection registered
when the call starts, each with the whole of `p` (the write calls of the pass
are a rearrangement of the registered transports, whatever fails), and, when
the registered transports are distinct, a transport whose write succeeds has
received exactly `p` after what it had received before. -/
theorem Write_one_write_per_conn (p : List Byte) (env : Nat → WriteOutcome)
    (ord : RangeOrder) (s : State) (h : Inv s)
    (hnc : (s.conns.map (fun e => e.2.nc)).Nodup) :
    ∃ s1 pass, Write p env ord s = some (s1, p.length, none) ∧
      s1.events = s.events ++ pass ∧
      (connWrites pass).Perm (s.conns.map (fun e => (e.2.nc, p, env e.2.nc))) ∧
      ∀ e ∈ s.conns, env e.2.nc = .ok →
        delivered e.2.nc s1.events = delivered e.2.nc s.events ++ p := by
  refine ⟨_, _, Write_spec p env ord s h, rfl, ?_, ?_⟩
  · rw [connWrites_effects]
    exact (ord.perm s.conns).map _
  · intro e he hok
    have hp := ord.perm s.conns
    have hnd : ((ord.order s.conns).map (fun e => e.2.nc)).Nodup :=
      ((hp.map _).nodup_iff).mpr hnc
    simp only [delivered_append]
    rw [delivered_effects_of_mem p env _ hnd e (hp.mem_iff.mpr he), hok]
    rfl

theorem Write_one_write_per_conn_witness :
    Inv admittedAB ∧ (admittedAB.conns.map (fun e => e.2.nc)).Nodup ∧
    ∃ s1 pass, Write hello allOk .listed admittedAB = some (s1, 5, none) ∧
      s1.events = admittedAB.events ++ pass ∧
      (connWrites pass).Perm (admittedAB.conns.map (fun e => (e.2.nc, hello, allOk e.2.nc))) ∧
      ∀ e ∈ admittedAB.conns, allOk e.2.nc = .ok →
        delivered e.2.nc s1.events = delivered e.2.nc admittedAB.events ++ hello :=
  ⟨inv_admittedAB, by decide,
    Write_one_write_per_conn hello allOk .listed admittedAB inv_admittedAB (by decide)⟩

/-- C10: `Write` only shrinks the registry: the map after the call is the map
before it restricted to the entries whose write succeeded (same identifier,
same transport, same channel), nothing is added and `nextid` is unchanged. -/
theorem Write_only_shrinks (p : List Byte) (env : Nat → WriteOutcome) (ord : RangeOrder)
    (s : State) (h : Inv s) :
    ∃ s1, Write p env ord s = some (s1, p.length, none) ∧
      s1.conns = s.conns.filter (fun e => !(env e.2.nc).failed) ∧
      s1.nextid = s.nextid :=
  ⟨_, Write_spec p env ord s h, rfl, rfl⟩

theorem Write_only_shrinks_witness :
    Inv admittedAB ∧
    ∃ s1, Write payloadX (onlyFails 10) .backwards admittedAB = some (s1, 1, none) ∧
      s1.conns = admittedAB.conns.filter (fun e => !(onlyFails 10 e.2.nc).failed) ∧
      s1.nextid = admittedAB.nextid :=
  ⟨inv_admittedAB,
    Write_only_shrinks payloadX (onlyFails 10) .backwards admittedAB inv_admittedAB⟩

/-! ## The admission handler -/

/-- C7: with a response writer that is not a hijacker, `ServeHTTP` answers
500 on that writer, logs one message and returns; nothing is hijacked, written
or closed, and the registry, the counter, the channels and the suspended calls
are unchanged. -/
theorem ServeHTTP_not_hijacker (preamble : List Byte) (hdr : WriteOutcome) (s : State) :
    ServeHTTP preamble .plain hdr s =
      ({ s with events := s.events ++
          [.httpError 500 "Could not process request",
           .logf s.Logger "longpoll: received a response writer which was not a hijacker"] },
        .returned) ∧
    (ServeHTTP preamble .plain hdr s).1.conns = s.conns ∧
    (ServeHTTP preamble .plain hdr s).1.nextid = s.nextid := by
  simp [ServeHTTP, State.emit, State.logf]

/-- C6: when the hijack succeeds and the write of the response header fails,
`ServeHTTP` logs the error, closes the transport once (the only close in the
effects of the call) and returns; the registry and the counter are the same
after the call as before it. -/
theorem ServeHTTP_header_write_fails (preamble : List Byte) (nc n : Nat) (err : String)
    (s : State) :
    ServeHTTP preamble (.hijacker (some nc) none) (.fail n err) s =
      ({ s with events := s.events ++
          [.connWrite nc preamble (.fail n err),
           .logf s.Logger ("longpoll: error writing the response header: " ++ err),
           .connClose nc] },
        .returned) ∧
    (ServeHTTP preamble (.hijacker (some nc) none) (.fail n err) s).1.conns = s.conns ∧
    (ServeHTTP preamble (.hijacker (some nc) none) (.fail n err) s).1.nextid = s.nextid := by
  simp [ServeHTTP, State.emit, State.logf]

/-- C5 (the code at a failing hijack): when `Hijack` returns a nil connection
with the error `http: connection has been hijacked`, `ServeHTTP` logs, sends no
error response and panics on the nil connection; when `Hijack` returns a
connection together with an error, `ServeHTTP` logs, goes on to write the
response header to that connection and registers it. -/
theorem ServeHTTP_hijack_error_goes_on :
    ServeHTTP sampleHeader (.hijacker none (some "http: connection has been hijacked")) .ok New =
      ({ New with events :=
          [.logf none "longpoll: hijacking error: http: connection has been hijacked"] },
        .panicked) ∧
    ServeHTTP sampleHeader (.hijacker (some 10) (some "hijack failed")) .ok New =
      ({ New with nextid := 1, conns := [(0, ⟨10, 0⟩)], chans := [0], parked := [⟨10, 0⟩],
                  events := [.logf none "longpoll: hijacking error: hijack failed",
                             .connWrite 10 sampleHeader .ok] },
        .parked 0) := by
  constructor <;> rfl

/-! ## The transitions -/

/-- The function `ServeHTTP` is its part before the lock followed by the
registration. -/
theorem ServeHTTP_eq_head_register (preamble : List Byte) (w : ResponseWriter)
    (hdr : WriteOutcome) (s : State) :
    ServeHTTP preamble w hdr s =
      match ServeHTTP.head preamble w hdr s with
      | (s1, .returned) => (s1, .returned)
      | (s1, .panicked) => (s1, .panicked)
      | (s1, .waiting nc) =>
        ((ServeHTTP.register nc s1).1, .parked (ServeHTTP.register nc s1).2) := by
  rcases w with _ | ⟨nc, err⟩
  · rfl
  · rcases nc with _ | nc <;> rcases err with _ | err <;> rcases hdr with _ | ⟨n, e⟩ <;> rfl

theorem Write.signal_length (env : Nat → WriteOutcome) :
    ∀ (es : List (Int × conn)) (bufs : List Nat), (Write.signal env es bufs).length = bufs.length := by
  intro es
  induction es with
  | nil => intro bufs; rfl
  | cons e es ih =>
    intro bufs
    simp only [Write.signal, ih]
    split <;> simp

theorem Write.signal_untouched (env : Nat → WriteOutcome) (i : Nat) :
    ∀ (es : List (Int × conn)) (bufs : List Nat),
      (∀ e ∈ es, (env e.2.nc).failed = true → e.2.done ≠ i) →
      (Write.signal env es bufs)[i]? = bufs[i]? := by
  intro es
  induction es with
  | nil => intro bufs _; rfl
  | cons e es ih =>
    intro bufs h
    simp only [Write.signal]
    rw [ih _ (fun x hx => h x (List.mem_cons_of_mem _ hx))]
    by_cases hf : (env e.2.nc).failed = true
    · simp only [hf, if_true]
      exact List.getElem?_set_ne (h e (List.mem_cons_self _ _) hf)
    · simp [hf]

theorem mem_mapDelete {m : List (Int × conn)} {k : Int} {x : Int × conn} :
    x ∈ mapDelete m k ↔ x ∈ m ∧ x.1 ≠ k := by
  simp [mapDelete]

theorem lt_of_getElem?_eq_some {bufs : List Nat} {i v : Nat} (h : bufs[i]? = some v) :
    i < bufs.length := by
  rcases List.getElem?_eq_some.mp h with ⟨hl, _⟩; exact hl

theorem Inv_register {s t : State} (h : Inv s) (k : Int) (nc : Nat)
    (hconns : t.conns = mapSet s.conns k ⟨nc, s.chans.length⟩)
    (hchans : t.chans = s.chans ++ [0]) : Inv t := by
  refine ⟨?_, ?_, ?_⟩
  · rw [hconns]
    simp only [mapSet, List.map_append, List.map_cons, List.map_nil]
    rw [List.nodup_append]
    refine ⟨h.keys.sublist ((List.filter_sublist _).map _), List.nodup_singleton _, ?_⟩
    intro k1 hk hk1
    simp only [List.mem_singleton] at hk1
    simp only [List.mem_map] at hk
    rcases hk with ⟨x, hx, rfl⟩
    exact (mem_mapDelete.mp hx).2 hk1
  · rw [hconns]
    simp only [mapSet, List.map_append, List.map_cons, List.map_nil]
    rw [List.nodup_append]
    refine ⟨h.dones.sublist ((List.filter_sublist _).map _), List.nodup_singleton _, ?_⟩
    intro d hd hd1
    simp only [List.mem_singleton] at hd1
    simp only [List.mem_map] at hd
    rcases hd with ⟨x, hx, rfl⟩
    have := lt_of_getElem?_eq_some (h.ready x (mem_mapDelete.mp hx).1)
    omega
  · intro x hx
    rw [hconns] at hx
    simp only [mapSet, List.mem_append, List.mem_singleton] at hx
    rw [hchans]
    rcases hx with hx | rfl
    · have hr := h.ready x (mem_mapDelete.mp hx).1
      rw [List.getElem?_append_left (lt_of_getElem?_eq_some hr)]
      exact hr
    · simp

theorem Inv_Write (p : List Byte) (env : Nat → WriteOutcome) (ord : RangeOrder)
    (s : State) (h : Inv s) (r : State × Nat × Option String)
    (hr : Write p env ord s = some r) : Inv r.1 := by
  rw [Write_spec p env ord s h] at hr
  cases hr
  refine ⟨?_, ?_, ?_⟩
  · exact h.keys.sublist ((List.filter_sublist _).map _)
  · exact h.dones.sublist ((List.filter_sublist _).map _)
  · intro x hx
    simp only [List.mem_filter, Bool.not_eq_true', ] at hx
    show (Write.signal env (ord.order s.conns) s.chans)[x.2.done]? = some 0
    rw [Write.signal_untouched]
    · exact h.ready x hx.1
    · intro e he hf hd
      have he1 : e ∈ s.conns := (ord.perm s.conns).mem_iff.mp he
      have := mem_eq_of_done h.dones he1 hx.1 hd
      subst this
      rw [hf] at hx
      exact Bool.noConfusion hx.2

theorem resume_spec (i : Nat) (s s1 : State) (h : resume i s = some s1) :
    ∃ c k, s.parked[i]? = some c ∧ s.chans[c.done]? = some (k + 1) ∧
      s1 = { s with chans := s.chans.set c.done k, parked := s.parked.eraseIdx i,
                    events := s.events ++ [.chanRecv c.done, .connClose c.nc] } := by
  unfold resume at h
  split at h
  · cases h
  · rename_i c hc
    split at h
    · rename_i k hk
      cases h
      exact ⟨c, k, hc, hk, by simp [State.emit]⟩
    · cases h

theorem Inv_resume (i : Nat) (s s1 : State) (h : Inv s) (hr : resume i s = some s1) :
    Inv s1 := by
  rcases resume_spec i s s1 hr with ⟨c, k, _, hk, rfl⟩
  refine ⟨h.keys, h.dones, ?_⟩
  intro x hx
  have hx0 := h.ready x hx
  have hne : c.done ≠ x.2.done := by
    intro heq
    rw [heq, hx0] at hk
    cases hk
  show (s.chans.set c.done k)[x.2.done]? = some 0
  rw [List.getElem?_set_ne hne]; exact hx0


/-- What the part of `ServeHTTP` before the lock does: it only adds effects;
they act on no transport but the hijacked one, send on no channel and close
at most once; when the call goes on to register, it wrote the header on its
transport and closed nothing. -/
theorem head_spec (preamble : List Byte) (w : ResponseWriter) (hdr : WriteOutcome)
    (s : State) :
    ∃ l, (ServeHTTP.head preamble w hdr s).1 = { s with events := s.events ++ l } ∧
      (∀ ev ∈ l, ∀ nc, ev.transport = some nc → ∃ err, w = .hijacker (some nc) err) ∧
      (∀ ch, sendCount ch l = 0) ∧
      (∀ nc, closeCount nc l ≤ 1) ∧
      (∀ nc, (ServeHTTP.head preamble w hdr s).2 = .waiting nc →
        (∃ err, w = .hijacker (some nc) err) ∧ Event.connWrite nc preamble .ok ∈ l ∧
        ∀ c0, closeCount c0 l = 0) := by
  rcases w with _ | ⟨nc, err⟩
  · exact ⟨[.httpError 500 "Could not process request",
      .logf s.Logger "longpoll: received a response writer which was not a hijacker"],
      by simp [ServeHTTP.head, State.emit, State.logf], by simp [Event.transport],
      by simp [sendCount], by simp [closeCount], by simp [ServeHTTP.head]⟩
  · rcases nc with _ | nc
    · rcases err with _ | err
      · exact ⟨[], by simp [ServeHTTP.head], by simp, by simp [sendCount],
          by simp [closeCount], by simp [ServeHTTP.head]⟩
      · exact ⟨[.logf s.Logger ("longpoll: hijacking error: " ++ err)],
          by simp [ServeHTTP.head, State.emit, State.logf], by simp [Event.transport],
          by simp [sendCount], by simp [closeCount], by simp [ServeHTTP.head]⟩
    · rcases hdr with _ | ⟨n, e⟩
      · rcases err with _ | err
        · exact ⟨[.connWrite nc preamble .ok], by simp [ServeHTTP.head, State.emit],
            by simp [Event.transport], by simp [sendCount], by simp [closeCount],
            by simp [ServeHTTP.head, closeCount]⟩
        · exact ⟨[.logf s.Logger ("longpoll: hijacking error: " ++ err),
            .connWrite nc preamble .ok], by simp [ServeHTTP.head, State.emit, State.logf],
            by simp [Event.transport], by simp [sendCount], by simp [closeCount],
            by simp [ServeHTTP.head, closeCount]⟩
      · rcases err with _ | err
        · exact ⟨[.connWrite nc preamble (.fail n e),
            .logf s.Logger ("longpoll: error writing the response header: " ++ e),
            .connClose nc], by simp [ServeHTTP.head, State.emit, State.logf],
            by simp [Event.transport], by simp [sendCount],
            by intro c0; simp only [closeCount, List.count_cons]; simp; split <;> simp,
            by simp [ServeHTTP.head]⟩
        · exact ⟨[.logf s.Logger ("longpoll: hijacking error: " ++ err),
            .connWrite nc preamble (.fail n e),
            .logf s.Logger ("longpoll: error writing the response header: " ++ e),
            .connClose nc], by simp [ServeHTTP.head, State.emit, State.logf],
            by simp [Event.transport], by simp [sendCount],
            by intro c0; simp only [closeCount, List.count_cons]; simp; split <;> simp,
            by simp [ServeHTTP.head]⟩

/-- One iteration of the loop of `Write` on a registered entry. -/
theorem body_spec (p : List Byte) (env : Nat → WriteOutcome) (e : Int × conn) (s : State)
    (h : Inv s) (he : e ∈ s.conns) :
    Write.body p env e s = some
      (if (env e.2.nc).failed then
        { s with conns := mapDelete s.conns e.1, chans := s.chans.set e.2.done 1,
                 events := s.events ++ [.connWrite e.2.nc p (env e.2.nc),
                                        .chanSend e.2.done] }
      else { s with events := s.events ++ [.connWrite e.2.nc p (env e.2.nc)] }) := by
  have hr : s.chans[e.2.done]? = some 0 := h.ready e he
  simp only [Write.body, mapHas_of_mem he, if_true]
  by_cases hf : (env e.2.nc).failed = true
  · simp [hf, State.emit, hr]
  · simp [hf, State.emit]

theorem Inv_evict {s t : State} (h : Inv s) (e : Int × conn) (he : e ∈ s.conns)
    (hc : t.conns = mapDelete s.conns e.1) (hch : t.chans = s.chans.set e.2.done 1) :
    Inv t := by
  refine ⟨?_, ?_, ?_⟩
  · rw [hc]; exact h.keys.sublist ((List.filter_sublist _).map _)
  · rw [hc]; exact h.dones.sublist ((List.filter_sublist _).map _)
  · intro x hx
    rw [hc] at hx
    have hx1 := mem_mapDelete.mp hx
    have hd : e.2.done ≠ x.2.done := fun hd =>
      hx1.2 (congrArg Prod.fst (mem_eq_of_done h.dones hx1.1 he hd.symm))
    rw [hch, List.getElem?_set_ne hd]
    exact h.ready x hx1.1

/-- One iteration of the loop of `Write` in the system. -/
theorem iter_spec (preamble p : List Byte) (res : WriteOutcome) (t : Sys) (h : SysInv t)
    (e : Int × conn) (es : List (Int × conn)) (hp : t.pass = some (p, e :: es)) :
    step preamble (.iter res) t = some
      (if res.failed then
        { t with conns := mapDelete t.conns e.1, chans := t.chans.set e.2.done 1,
                 events := t.events ++ [.connWrite e.2.nc p res, .chanSend e.2.done],
                 pass := some (p, es) }
      else { t with events := t.events ++ [.connWrite e.2.nc p res],
                    pass := some (p, es) }) := by
  have he : e ∈ t.conns := (h.todo p _ hp).2 e (List.mem_cons_self _ _)
  simp only [step, hp, body_spec p (fun _ => res) e t.toState h.inv he, Option.map_some']
  by_cases hf : res.failed = true <;> simp [hf]

theorem serve_spec (preamble : List Byte) (w : ResponseWriter) (hdr : WriteOutcome) (t : Sys) :
    step preamble (.serve w hdr) t = some
      { t with toState := (ServeHTTP.head preamble w hdr t.toState).1,
               entering := t.entering ++
                 (match (ServeHTTP.head preamble w hdr t.toState).2 with
                  | .waiting nc => [nc]
                  | _ => []) } := by
  simp only [step]
  rcases hh : ServeHTTP.head preamble w hdr t.toState with ⟨s1, hd⟩
  rcases hd with _ | _ | nc <;> simp

theorem register_spec (preamble : List Byte) (i : Nat) (t t1 : Sys)
    (hs : step preamble (.register i) t = some t1) :
    t.pass = none ∧ ∃ nc, t.entering[i]? = some nc ∧
      t1 = { t with chans := t.chans ++ [0], nextid := wrap64 (t.nextid + 1),
                    conns := mapSet t.conns t.nextid ⟨nc, t.chans.length⟩,
                    parked := t.parked ++ [⟨nc, t.chans.length⟩],
                    entering := t.entering.eraseIdx i } := by
  simp only [step] at hs
  split at hs
  · rename_i nc hp hi
    cases hs
    exact ⟨hp, nc, hi, rfl⟩
  · cases hs

theorem lock_spec (preamble p : List Byte) (ord : RangeOrder) (t t1 : Sys)
    (hs : step preamble (.lock p ord) t = some t1) :
    t.pass = none ∧ t1 = { t with pass := some (p, ord.order t.conns) } := by
  simp only [step] at hs
  split at hs
  · rename_i hp
    cases hs
    exact ⟨hp, rfl⟩
  · cases hs

theorem iter_pass (preamble : List Byte) (res : WriteOutcome) (t t1 : Sys)
    (hs : step preamble (.iter res) t = some t1) :
    ∃ p e es, t.pass = some (p, e :: es) := by
  simp only [step] at hs
  split at hs
  · rename_i p e es hp
    exact ⟨p, e, es, hp⟩
  · cases hs

theorem unlock_spec (preamble : List Byte) (t t1 : Sys)
    (hs : step preamble .unlock t = some t1) :
    (∃ p, t.pass = some (p, [])) ∧ t1 = { t with pass := none } := by
  simp only [step] at hs
  split at hs
  · rename_i p hp
    cases hs
    exact ⟨⟨p, hp⟩, rfl⟩
  · cases hs

theorem resume_step_spec (preamble : List Byte) (i : Nat) (t t1 : Sys)
    (hs : step preamble (.resume i) t = some t1) :
    ∃ c0 k, t.parked[i]? = some c0 ∧ t.chans[c0.done]? = some (k + 1) ∧
      t1 = { t with chans := t.chans.set c0.done k, parked := t.parked.eraseIdx i,
                    events := t.events ++ [.chanRecv c0.done, .connClose c0.nc] } := by
  simp only [step, Option.map_eq_some'] at hs
  rcases hs with ⟨s1, hr, rfl⟩
  rcases resume_spec i t.toState s1 hr with ⟨c0, k, hi, hk, rfl⟩
  exact ⟨c0, k, hi, hk, rfl⟩

/-! ## The invariant is kept by every transition -/

theorem SysInv_step (preamble : List Byte) (a : Action) (t t1 : Sys) (h : SysInv t)
    (hs : step preamble a t = some t1) : SysInv t1 := by
  cases a with
  | serve w hdr =>
    rw [serve_spec] at hs
    cases hs
    rcases head_spec preamble w hdr t.toState with ⟨l, hl, _⟩
    refine ⟨?_, ?_⟩
    · show Inv (ServeHTTP.head preamble w hdr t.toState).1
      rw [hl]; exact ⟨h.inv.keys, h.inv.dones, h.inv.ready⟩
    · intro p es hp
      have := h.todo p es hp
      show es.Nodup ∧ ∀ e ∈ es, e ∈ (ServeHTTP.head preamble w hdr t.toState).1.conns
      rw [hl]; exact this
  | register i =>
    rcases register_spec preamble i t t1 hs with ⟨hpass, nc, _, rfl⟩
    refine ⟨Inv_register h.inv t.nextid nc rfl rfl, ?_⟩
    intro p es hp
    have hp1 : t.pass = some (p, es) := hp
    rw [hpass] at hp1
    cases hp1
  | lock p ord =>
    rcases lock_spec preamble p ord t t1 hs with ⟨_, rfl⟩
    refine ⟨h.inv, ?_⟩
    intro p1 es hp
    cases hp
    have hperm := ord.perm t.conns
    exact ⟨hperm.nodup_iff.mpr h.inv.nodup, fun e he => hperm.mem_iff.mp he⟩
  | iter res =>
    rcases iter_pass preamble res t t1 hs with ⟨p, e, es, hp⟩
    rw [iter_spec preamble p res t h e es hp] at hs
    have htodo := h.todo p _ hp
    have he : e ∈ t.conns := htodo.2 e (List.mem_cons_self _ _)
    have hnd := List.nodup_cons.mp htodo.1
    by_cases hf : res.failed = true
    · simp only [hf, if_true, Option.some.injEq] at hs
      subst hs
      refine ⟨Inv_evict h.inv e he rfl rfl, ?_⟩
      intro p1 es1 hp1
      cases hp1
      refine ⟨hnd.2, ?_⟩
      intro x hx
      have hxc : x ∈ t.conns := htodo.2 x (List.mem_cons_of_mem _ hx)
      refine mem_mapDelete.mpr ⟨hxc, fun hk => hnd.1 ?_⟩
      rw [← mem_eq_of_key h.inv.keys hxc he hk]; exact hx
    · simp only [hf, Bool.false_eq_true, if_false, Option.some.injEq] at hs
      subst hs
      refine ⟨⟨h.inv.keys, h.inv.dones, h.inv.ready⟩, ?_⟩
      intro p1 es1 hp1
      cases hp1
      exact ⟨hnd.2, fun x hx => htodo.2 x (List.mem_cons_of_mem _ hx)⟩
  | unlock =>
    rcases unlock_spec preamble t t1 hs with ⟨_, rfl⟩
    exact ⟨h.inv, fun p es hp => by cases hp⟩
  | resume i =>
    have hs1 := hs
    simp only [step, Option.map_eq_some'] at hs1
    rcases hs1 with ⟨s1, hr, rfl⟩
    refine ⟨Inv_resume i t.toState s1 h.inv hr, ?_⟩
    intro p es hp
    rcases resume_spec i t.toState s1 hr with ⟨c0, k, _, _, rfl⟩
    exact h.todo p es hp

theorem Inv_New : Inv New := ⟨List.nodup_nil, List.nodup_nil, fun _ h => (nomatch h)⟩

theorem SysInv_idle (s : State) (ent : List Nat) (h : Inv s) : SysInv (Sys.idle s ent) :=
  ⟨h, fun _ _ hp => by cases hp⟩

theorem SysInv_boot : SysInv boot := SysInv_idle New [] Inv_New

theorem SysInv_run (preamble : List Byte) :
    ∀ (as : List Action) (t t1 : Sys), SysInv t → run preamble as t = some t1 →
      SysInv t1 := by
  intro as
  induction as with
  | nil => intro t t1 h hr; simp only [run, Option.some.injEq] at hr; exact hr ▸ h
  | cons a as ih =>
    intro t t1 h hr
    simp only [run, Option.bind_eq_some] at hr
    rcases hr with ⟨t0, hs0, hr⟩
    exact ih t0 t1 (SysInv_step preamble a t t0 h hs0) hr

/-! ## A `Write` call that runs undisturbed is the function `Write` -/

theorem run_append (preamble : List Byte) :
    ∀ (as bs : List Action) (t : Sys),
      run preamble (as ++ bs) t = (run preamble as t).bind (run preamble bs) := by
  intro as
  induction as with
  | nil => intro bs t; rfl
  | cons a as ih =>
    intro bs t
    simp only [List.cons_append, run]
    cases step preamble a t with
    | none => rfl
    | some t0 => exact ih bs t0

theorem run_iters (preamble p : List Byte) (env : Nat → WriteOutcome) :
    ∀ (es : List (Int × conn)) (t : Sys), t.pass = some (p, es) →
      run preamble (es.map (fun e => Action.iter (env e.2.nc))) t =
        (Write.loop p env es t.toState).map
          (fun s1 => { t with toState := s1, pass := some (p, []) }) := by
  intro es
  induction es with
  | nil =>
    intro t hp
    simp only [List.map_nil, run, Write.loop, Option.map_some']
    rcases t with ⟨s, pass, ent⟩
    cases hp
    rfl
  | cons e es ih =>
    intro t hp
    simp only [List.map_cons, run, step, hp, Write.loop]
    have hb : Write.body p (fun _ => env e.2.nc) e t.toState = Write.body p env e t.toState :=
      rfl
    rw [hb]
    cases Write.body p env e t.toState with
    | none => rfl
    | some s1 =>
      simp only [Option.map_some', Option.some_bind]
      rw [ih _ rfl]

/-- In the system, a `Write(p)` call whose transitions are taken one after
the other, with nothing scheduled in between, is the function `Write`. -/
theorem run_passOf (preamble p : List Byte) (env : Nat → WriteOutcome) (ord : RangeOrder)
    (t : Sys) (hp : t.pass = none) :
    run preamble (passOf p env ord t.conns) t =
      (Write p env ord t.toState).map (fun r => { t with toState := r.1 }) := by
  have hlock : step preamble (.lock p ord) t =
      some { t with pass := some (p, ord.order t.conns) } := by
    simp only [step, hp]
  simp only [passOf, run, hlock, Option.some_bind, run_append, Write, Option.map_map]
  rw [run_iters preamble p env _ _ rfl]
  cases Write.loop p env (ord.order t.conns) t.toState with
  | none => rfl
  | some s1 =>
    simp only [Option.map_some', Option.some_bind, run, step, Function.comp_apply]
    rcases t with ⟨s, pass, ent⟩
    cases hp
    rfl

/-! ## Completion signals -/

theorem sendCount_append (ch : Nat) (a b : List Event) :
    sendCount ch (a ++ b) = sendCount ch a + sendCount ch b := by
  simp [sendCount, List.count_append]

theorem sendCount_cons_write (ch nc : Nat) (p : List Byte) (res : WriteOutcome)
    (evs : List Event) : sendCount ch (.connWrite nc p res :: evs) = sendCount ch evs := by
  simp [sendCount, List.count_cons]

theorem sendCount_single (ch d : Nat) :
    sendCount ch [.chanSend d] = if d = ch then 1 else 0 := by
  simp [sendCount, List.count_cons]

theorem sendCount_effects (p : List Byte) (env : Nat → WriteOutcome) (ch : Nat)
    (e : Int × conn) :
    sendCount ch (Write.effects p env e) =
      if (env e.2.nc).failed = true ∧ e.2.done = ch then 1 else 0 := by
  simp only [Write.effects, sendCount_cons_write]
  by_cases hf : (env e.2.nc).failed = true
  · simp only [hf, if_true, sendCount_single, true_and]
  · simp [hf, sendCount]

theorem sendCount_effects_zero (p : List Byte) (env : Nat → WriteOutcome) (ch : Nat)
    (es : List (Int × conn))
    (h : ∀ e ∈ es, (env e.2.nc).failed = true → e.2.done ≠ ch) :
    sendCount ch (es.flatMap (Write.effects p env)) = 0 := by
  induction es with
  | nil => rfl
  | cons e es ih =>
    simp only [List.flatMap_cons, sendCount_append,
      ih (fun x hx => h x (List.mem_cons_of_mem _ hx)), sendCount_effects]
    have := h e (List.mem_cons_self _ _)
    simp only [Nat.add_zero, ite_eq_right_iff]
    intro hh
    exact absurd hh.2 (this hh.1)

theorem sendCount_effects_le (p : List Byte) (env : Nat → WriteOutcome) (ch : Nat)
    (es : List (Int × conn)) (hnd : (es.map (fun e => e.2.done)).Nodup) :
    sendCount ch (es.flatMap (Write.effects p env)) ≤ 1 := by
  induction es with
  | nil => simp [sendCount]
  | cons e es ih =>
    simp only [List.map_cons, List.nodup_cons] at hnd
    simp only [List.flatMap_cons, sendCount_append, sendCount_effects]
    by_cases hd : e.2.done = ch
    · have h0 : sendCount ch (es.flatMap (Write.effects p env)) = 0 := by
        apply sendCount_effects_zero
        intro x hx _ hxd
        exact hnd.1 (List.mem_map.mpr ⟨x, hx, hxd.trans hd.symm⟩)
      rw [h0]
      split <;> simp
    · have := ih hnd.2
      simp only [hd, and_false, if_false, Nat.zero_add]
      exact this

theorem Signals_Write (p : List Byte) (env : Nat → WriteOutcome) (ord : RangeOrder)
    (s : State) (h : Inv s) (hs : Signals s) (r : State × Nat × Option String)
    (hr : Write p env ord s = some r) : Signals r.1 := by
  rw [Write_spec p env ord s h] at hr
  cases hr
  have hp := ord.perm s.conns
  refine ⟨?_, ?_, ?_⟩
  · intro ch
    show sendCount ch (s.events ++ _) ≤ 1
    rw [sendCount_append]
    by_cases hex : ∃ e ∈ ord.order s.conns, (env e.2.nc).failed = true ∧ e.2.done = ch
    · rcases hex with ⟨e, he, _, rfl⟩
      rw [hs.unsent e (hp.mem_iff.mp he), Nat.zero_add]
      exact sendCount_effects_le p env _ _ (((hp.map _).nodup_iff).mpr h.dones)
    · rw [sendCount_effects_zero p env ch _ (fun e he hf hd => hex ⟨e, he, hf, hd⟩)]
      exact hs.once ch
  · intro x hx
    simp only [List.mem_filter, Bool.not_eq_true'] at hx
    show sendCount x.2.done (s.events ++ _) = 0
    rw [sendCount_append, hs.unsent x hx.1, Nat.zero_add]
    apply sendCount_effects_zero
    intro e he hf hd
    have := mem_eq_of_done h.dones (hp.mem_iff.mp he) hx.1 hd
    subst this
    rw [hf] at hx
    exact Bool.noConfusion hx.2
  · intro ch hch
    show sendCount ch (s.events ++ _) = 0
    have hch1 : s.chans.length ≤ ch := by
      have : (Write.signal env (ord.order s.conns) s.chans).length ≤ ch := hch
      rwa [Write.signal_length] at this
    rw [sendCount_append, hs.unmade ch hch1, Nat.zero_add]
    apply sendCount_effects_zero
    intro e he _ hd
    have := lt_of_getElem?_eq_some (h.ready e (hp.mem_iff.mp he))
    omega

theorem Signals_step (preamble : List Byte) (a : Action) (t t1 : Sys) (h : SysInv t)
    (hs : Signals t.toState) (hstep : step preamble a t = some t1) :
    Signals t1.toState := by
  cases a with
  | serve w hdr =>
    rw [serve_spec] at hstep
    cases hstep
    rcases head_spec preamble w hdr t.toState with ⟨l, hl, _, hsend, _⟩
    show Signals (ServeHTTP.head preamble w hdr t.toState).1
    rw [hl]
    refine ⟨?_, ?_, ?_⟩
    · intro ch
      show sendCount ch (t.events ++ l) ≤ 1
      rw [sendCount_append, hsend, Nat.add_zero]; exact hs.once ch
    · intro e he
      show sendCount _ (t.events ++ l) = 0
      rw [sendCount_append, hsend, Nat.add_zero]; exact hs.unsent e he
    · intro ch hch
      show sendCount _ (t.events ++ l) = 0
      rw [sendCount_append, hsend, Nat.add_zero]; exact hs.unmade ch hch
  | register i =>
    rcases register_spec preamble i t t1 hstep with ⟨_, nc, _, rfl⟩
    refine ⟨hs.once, ?_, ?_⟩
    · intro e he
      have he1 : e ∈ mapSet t.conns t.nextid ⟨nc, t.chans.length⟩ := he
      simp only [mapSet, List.mem_append, List.mem_singleton] at he1
      rcases he1 with he1 | rfl
      · exact hs.unsent e (mem_mapDelete.mp he1).1
      · exact hs.unmade _ (Nat.le_refl _)
    · intro ch hch
      have hch1 : (t.chans ++ [0]).length ≤ ch := hch
      simp only [List.length_append, List.length_singleton] at hch1
      exact hs.unmade ch (by omega)
  | lock p ord =>
    rcases lock_spec preamble p ord t t1 hstep with ⟨_, rfl⟩
    exact hs
  | iter res =>
    rcases iter_pass preamble res t t1 hstep with ⟨p, e, es, hp⟩
    rw [iter_spec preamble p res t h e es hp] at hstep
    have he : e ∈ t.conns := (h.todo p _ hp).2 e (List.mem_cons_self _ _)
    by_cases hf : res.failed = true
    · simp only [hf, if_true, Option.some.injEq] at hstep
      subst hstep
      have hcount : ∀ ch, sendCount ch
          (t.events ++ [Event.connWrite e.2.nc p res, Event.chanSend e.2.done]) =
          sendCount ch t.events + if e.2.done = ch then 1 else 0 := by
        intro ch
        rw [sendCount_append, sendCount_cons_write, sendCount_single]
      refine ⟨?_, ?_, ?_⟩
      · intro ch
        show sendCount ch (t.events ++ _) ≤ 1
        rw [hcount]
        by_cases hd : e.2.done = ch
        · subst hd; simp [hs.unsent e he]
        · simpa [hd] using hs.once ch
      · intro x hx
        have hx1 := mem_mapDelete.mp hx
        have hd : e.2.done ≠ x.2.done := fun hd =>
          hx1.2 (congrArg Prod.fst (mem_eq_of_done h.inv.dones hx1.1 he hd.symm))
        show sendCount _ (t.events ++ _) = 0
        rw [hcount]
        simpa [hd] using hs.unsent x hx1.1
      · intro ch hch
        have hch1 : (t.chans.set e.2.done 1).length ≤ ch := hch
        rw [List.length_set] at hch1
        have hlt := lt_of_getElem?_eq_some (h.inv.ready e he)
        have hd : e.2.done ≠ ch := by omega
        show sendCount _ (t.events ++ _) = 0
        rw [hcount]
        simpa [hd] using hs.unmade ch hch1
    · simp only [hf, Bool.false_eq_true, if_false, Option.some.injEq] at hstep
      subst hstep
      have hcount : ∀ ch, sendCount ch (t.events ++ [Event.connWrite e.2.nc p res]) =
          sendCount ch t.events := by
        intro ch
        rw [sendCount_append, sendCount_cons_write]; rfl
      refine ⟨?_, ?_, ?_⟩
      · intro ch; show sendCount ch (t.events ++ _) ≤ 1; rw [hcount]; exact hs.once ch
      · intro x hx; show sendCount _ (t.events ++ _) = 0; rw [hcount]; exact hs.unsent x hx
      · intro ch hch; show sendCount _ (t.events ++ _) = 0; rw [hcount]
        exact hs.unmade ch hch
  | unlock =>
    rcases unlock_spec preamble t t1 hstep with ⟨_, rfl⟩
    exact hs
  | resume i =>
    rcases resume_step_spec preamble i t t1 hstep with ⟨c0, k, _, _, rfl⟩
    have hcount : ∀ ch, sendCount ch (t.events ++ [.chanRecv c0.done, .connClose c0.nc]) =
        sendCount ch t.events := by
      intro ch; simp [sendCount]
    refine ⟨?_, ?_, ?_⟩
    · intro ch; show sendCount ch (t.events ++ _) ≤ 1; rw [hcount]; exact hs.once ch
    · intro e he; show sendCount _ (t.events ++ _) = 0; rw [hcount]; exact hs.unsent e he
    · intro ch hch
      show sendCount _ (t.events ++ _) = 0
      rw [hcount]
      apply hs.unmade
      have : (t.chans.set c0.done k).length ≤ ch := hch
      simpa using this

theorem Signals_run (preamble : List Byte) :
    ∀ (as : List Action) (t t1 : Sys), SysInv t → Signals t.toState →
      run preamble as t = some t1 → Signals t1.toState := by
  intro as
  induction as with
  | nil => intro t t1 _ hs hr; simp only [run, Option.some.injEq] at hr; exact hr ▸ hs
  | cons a as ih =>
    intro t t1 h hs hr
    simp only [run, Option.bind_eq_some] at hr
    rcases hr with ⟨t0, hs0, hr⟩
    exact ih t0 t1 (SysInv_step preamble a t t0 h hs0)
      (Signals_step preamble a t t0 h hs hs0) hr

theorem Signals_New : Signals New :=
  ⟨fun _ => Nat.zero_le _, fun _ h => (nomatch h), fun _ _ => rfl⟩

/-- C9: in every state the system reaches from `New()`, whatever the schedule
of admissions, `Write` loops and resumed handlers, no `done` channel has been
sent on more than once; the channel of every registered connection is empty,
so the send of any iteration of a `Write` loop completes at once, and a
`Write` call started in that state completes every send and returns. -/
theorem done_fired_at_most_once (preamble : List Byte) (as : List Action) (t : Sys)
    (hrun : run preamble as boot = some t) :
    (∀ ch, sendCount ch t.events ≤ 1) ∧
    (∀ e ∈ t.conns, t.chans[e.2.done]? = some 0) ∧
    (∀ p env ord, ∃ s1, Write p env ord t.toState = some (s1, p.length, none) ∧
      ∀ ch, sendCount ch s1.events ≤ 1) ∧
    (∀ p e es res, t.pass = some (p, e :: es) →
      ∃ t1, step preamble (.iter res) t = some t1 ∧ ∀ ch, sendCount ch t1.events ≤ 1) := by
  have hinv := SysInv_run preamble as boot t SysInv_boot hrun
  have hsig := Signals_run preamble as boot t SysInv_boot Signals_New hrun
  refine ⟨hsig.once, hinv.inv.ready, ?_, ?_⟩
  · intro p env ord
    exact ⟨_, Write_spec p env ord t.toState hinv.inv,
      (Signals_Write p env ord t.toState hinv.inv hsig _
        (Write_spec p env ord t.toState hinv.inv)).once⟩
  · intro p e es res hp
    have hstep := iter_spec preamble p res t hinv e es hp
    exact ⟨_, hstep, (Signals_step preamble _ t _ hinv hsig hstep).once⟩

theorem done_fired_at_most_once_witness :
    run sampleHeader evictA boot = some evictingA ∧
    ((∀ ch, sendCount ch evictingA.events ≤ 1) ∧
    (∀ e ∈ evictingA.conns, evictingA.chans[e.2.done]? = some 0) ∧
    (∀ p env ord, ∃ s1, Write p env ord evictingA.toState = some (s1, p.length, none) ∧
      ∀ ch, sendCount ch s1.events ≤ 1) ∧
    (∀ p e es res, evictingA.pass = some (p, e :: es) →
      ∃ t1, step sampleHeader (.iter res) evictingA = some t1 ∧
        ∀ ch, sendCount ch t1.events ≤ 1)) :=
  ⟨rfl, done_fired_at_most_once sampleHeader evictA evictingA rfl⟩

/-! ## An evicted connection is not written to again -/

theorem transport_of_mem_connWrites {l : List Event} {x : Nat × List Byte × WriteOutcome}
    (h : x ∈ connWrites l) : ∃ ev ∈ l, ev.transport = some x.1 := by
  induction l with
  | nil => cases h
  | cons ev l ih =>
    cases ev with
    | connWrite nc p res =>
      simp only [connWrites, List.mem_cons] at h
      rcases h with rfl | h
      · exact ⟨_, List.mem_cons_self _ _, rfl⟩
      · rcases ih h with ⟨ev, hev, ht⟩
        exact ⟨ev, List.mem_cons_of_mem _ hev, ht⟩
    | _ =>
      simp only [connWrites] at h
      rcases ih h with ⟨ev, hev, ht⟩
      exact ⟨ev, List.mem_cons_of_mem _ hev, ht⟩

theorem no_write_step (preamble : List Byte) (nc : Nat) (a : Action) (t t1 : Sys)
    (h : SysInv t) (hout : ∀ x ∈ t.conns, x.2.nc ≠ nc) (hent : nc ∉ t.entering)
    (ha : a.hijacks nc = false) (hs : step preamble a t = some t1) :
    (∀ x ∈ t1.conns, x.2.nc ≠ nc) ∧ nc ∉ t1.entering ∧
    ∃ later, t1.events = t.events ++ later ∧ ∀ x ∈ connWrites later, x.1 ≠ nc := by
  cases a with
  | serve w hdr =>
    rw [serve_spec] at hs
    cases hs
    rcases head_spec preamble w hdr t.toState with ⟨l, hl, htr, _, _, hwait⟩
    refine ⟨?_, ?_, l, ?_, ?_⟩
    · show ∀ x ∈ (ServeHTTP.head preamble w hdr t.toState).1.conns, x.2.nc ≠ nc
      rw [hl]; exact hout
    · show nc ∉ t.entering ++ _
      rw [List.mem_append, not_or]
      refine ⟨hent, ?_⟩
      cases hh : (ServeHTTP.head preamble w hdr t.toState).2 with
      | returned => simp
      | panicked => simp
      | waiting c0 =>
        rcases (hwait c0 hh).1 with ⟨err, rfl⟩
        have : c0 ≠ nc := by simpa [Action.hijacks] using ha
        simpa using this.symm
    · show (ServeHTTP.head preamble w hdr t.toState).1.events = t.events ++ l
      rw [hl]
    · intro x hx hxnc
      rcases transport_of_mem_connWrites hx with ⟨ev, hev, ht⟩
      rcases htr ev hev _ ht with ⟨err, rfl⟩
      simp [Action.hijacks, hxnc] at ha
  | register i =>
    rcases register_spec preamble i t t1 hs with ⟨_, c0, hi, rfl⟩
    have hc0 : c0 ∈ t.entering := List.mem_iff_getElem?.mpr ⟨i, hi⟩
    refine ⟨?_, ?_, [], by simp, by simp [connWrites]⟩
    · intro x hx
      have hx1 : x ∈ mapSet t.conns t.nextid ⟨c0, t.chans.length⟩ := hx
      simp only [mapSet, List.mem_append, List.mem_singleton] at hx1
      rcases hx1 with hx1 | rfl
      · exact hout x (mem_mapDelete.mp hx1).1
      · intro heq; exact hent (heq ▸ hc0)
    · intro hmem
      exact hent ((List.eraseIdx_sublist _ _).subset hmem)
  | lock p ord =>
    rcases lock_spec preamble p ord t t1 hs with ⟨_, rfl⟩
    exact ⟨hout, hent, [], by simp, by simp [connWrites]⟩
  | iter res =>
    rcases iter_pass preamble res t t1 hs with ⟨p, e, es, hp⟩
    rw [iter_spec preamble p res t h e es hp] at hs
    have he : e ∈ t.conns := (h.todo p _ hp).2 e (List.mem_cons_self _ _)
    by_cases hf : res.failed = true
    · simp only [hf, if_true, Option.some.injEq] at hs
      subst hs
      refine ⟨fun x hx => hout x (mem_mapDelete.mp hx).1, hent, _, rfl, ?_⟩
      intro x hx
      simp only [connWrites, List.mem_singleton] at hx
      subst hx
      exact hout e he
    · simp only [hf, Bool.false_eq_true, if_false, Option.some.injEq] at hs
      subst hs
      refine ⟨hout, hent, _, rfl, ?_⟩
      intro x hx
      simp only [connWrites, List.mem_singleton] at hx
      subst hx
      exact hout e he
  | unlock =>
    rcases unlock_spec preamble t t1 hs with ⟨_, rfl⟩
    exact ⟨hout, hent, [], by simp, by simp [connWrites]⟩
  | resume i =>
    rcases resume_step_spec preamble i t t1 hs with ⟨c0, k, _, _, rfl⟩
    exact ⟨hout, hent, _, rfl, by simp [connWrites]⟩

theorem no_write_run (preamble : List Byte) (nc : Nat) :
    ∀ (as : List Action) (t t1 : Sys), SysInv t → (∀ x ∈ t.conns, x.2.nc ≠ nc) →
      nc ∉ t.entering → (∀ a ∈ as, a.hijacks nc = false) → run preamble as t = some t1 →
      ∃ later, t1.events = t.events ++ later ∧ ∀ x ∈ connWrites later, x.1 ≠ nc := by
  intro as
  induction as with
  | nil =>
    intro t t1 _ _ _ _ hr
    simp only [run, Option.some.injEq] at hr
    exact ⟨[], by simp [hr], by simp [connWrites]⟩
  | cons a as ih =>
    intro t t1 h hout hent has hr
    simp only [run, Option.bind_eq_some] at hr
    rcases hr with ⟨t0, hs0, hr⟩
    rcases no_write_step preamble nc a t t0 h hout hent (has a (List.mem_cons_self _ _)) hs0
      with ⟨hout0, hent0, l0, hl0, hw0⟩
    rcases ih t0 t1 (SysInv_step preamble a t t0 h hs0) hout0 hent0
      (fun b hb => has b (List.mem_cons_of_mem _ hb)) hr with ⟨l1, hl1, hw1⟩
    refine ⟨l0 ++ l1, by rw [hl1, hl0, List.append_assoc], ?_⟩
    intro x hx
    rw [connWrites_append, List.mem_append] at hx
    rcases hx with hx | hx
    · exact hw0 x hx
    · exact hw1 x hx

/-- C3: a connection whose write fails during `Write` is out of the registry
when the call returns (its identifier keys no entry and no entry holds its
transport), and in every continuation of the system, whatever the schedule and
whatever `ServeHTTP` calls are waiting for `mu`, as long as that transport is
not handed to `ServeHTTP` again, no write call is issued on it. -/
theorem evicted_never_written_again (preamble p : List Byte) (env : Nat → WriteOutcome)
    (ord : RangeOrder) (s : State) (h : Inv s)
    (e : Int × conn) (he : e ∈ s.conns) (hf : (env e.2.nc).failed = true) :
    ∃ s1, Write p env ord s = some (s1, p.length, none) ∧
      mapHas s1.conns e.1 = false ∧ (∀ x ∈ s1.conns, x.2.nc ≠ e.2.nc) ∧
      ∀ (ent : List Nat) (as : List Action) (t2 : Sys), e.2.nc ∉ ent →
        (∀ a ∈ as, a.hijacks e.2.nc = false) →
        run preamble as (Sys.idle s1 ent) = some t2 →
        ∃ later, t2.events = s1.events ++ later ∧ ∀ x ∈ connWrites later, x.1 ≠ e.2.nc := by
  have hw := Write_spec p env ord s h
  have hout : ∀ x ∈ s.conns.filter (fun e => !(env e.2.nc).failed), x.2.nc ≠ e.2.nc := by
    intro x hx hxe
    simp only [List.mem_filter, Bool.not_eq_true'] at hx
    rw [hxe, hf] at hx
    exact Bool.noConfusion hx.2
  refine ⟨_, hw, ?_, hout, ?_⟩
  · simp only [mapHas, Bool.eq_false_iff, ne_eq, List.any_eq_true, decide_eq_true_eq,
      not_exists, not_and]
    intro x hx hxe
    have hx1 := List.mem_filter.mp hx
    have := mem_eq_of_key h.keys hx1.1 he hxe
    exact hout x hx (by rw [this])
  · intro ent as t2 hent has hr
    exact no_write_run preamble e.2.nc as _ t2
      (SysInv_idle _ ent (Inv_Write p env ord s h _ hw)) hout hent has hr

theorem evicted_never_written_again_witness :
    Inv admittedAB ∧
    ((0, ⟨10, 0⟩) : Int × conn) ∈ admittedAB.conns ∧ (onlyFails 10 10).failed = true ∧
    ∃ s1, Write payloadX (onlyFails 10) .listed admittedAB = some (s1, 1, none) ∧
      mapHas s1.conns 0 = false ∧ (∀ x ∈ s1.conns, x.2.nc ≠ 10) ∧
      ∀ (ent : List Nat) (as : List Action) (t2 : Sys), 10 ∉ ent →
        (∀ a ∈ as, a.hijacks 10 = false) →
        run sampleHeader as (Sys.idle s1 ent) = some t2 →
        ∃ later, t2.events = s1.events ++ later ∧ ∀ x ∈ connWrites later, x.1 ≠ 10 :=
  ⟨inv_admittedAB, by decide, by decide,
    evicted_never_written_again sampleHeader payloadX (onlyFails 10) .listed admittedAB
      inv_admittedAB (0, ⟨10, 0⟩) (by decide) (by decide)⟩

/-! ## Eviction and close -/

theorem closeCount_append (nc : Nat) (a b : List Event) :
    closeCount nc (a ++ b) = closeCount nc a + closeCount nc b := by
  simp [closeCount, List.count_append]

theorem closeCount_eq_zero_of_unseen {nc : Nat} {l : List Event}
    (h : some nc ∉ l.map Event.transport) : closeCount nc l = 0 := by
  rw [closeCount, List.count_eq_zero]
  intro hm
  exact h (List.mem_map.mpr ⟨_, hm, rfl⟩)

theorem closeCount_single (nc c0 : Nat) :
    closeCount nc [.connClose c0] = if c0 = nc then 1 else 0 := by
  simp [closeCount, List.count_cons]

theorem closeCount_recv_close (nc ch c0 : Nat) :
    closeCount nc [.chanRecv ch, .connClose c0] = if c0 = nc then 1 else 0 := by
  simp [closeCount, List.count_cons]

theorem not_mem_eraseIdx_of_nodup {α : Type} {l : List α} (hnd : l.Nodup) {i : Nat} {a : α}
    (hi : l[i]? = some a) : a ∉ l.eraseIdx i := by
  intro hx
  rcases List.mem_eraseIdx_iff_getElem?.mp hx with ⟨j, hji, hj⟩
  have hjl : j < l.length := by
    rcases List.getElem?_eq_some.mp hj with ⟨hl, _⟩; exact hl
  exact hji (List.getElem?_inj hjl hnd (hj.trans hi.symm))

theorem ne_of_mem_eraseIdx_map {α β : Type} (f : α → β) {l : List α}
    (hnd : (l.map f).Nodup) {i : Nat} {a x : α} (hi : l[i]? = some a)
    (hx : x ∈ l.eraseIdx i) : f x ≠ f a := by
  intro heq
  have hmap : (l.map f)[i]? = some (f a) := by rw [List.getElem?_map, hi]; rfl
  have : f a ∉ (l.map f).eraseIdx i := not_mem_eraseIdx_of_nodup hnd hmap
  apply this
  rw [← heq]
  rcases List.mem_eraseIdx_iff_getElem?.mp hx with ⟨j, hji, hj⟩
  exact List.mem_eraseIdx_iff_getElem?.mpr ⟨j, hji, by rw [List.getElem?_map, hj]; rfl⟩

theorem fresh_unseen {t : Sys} {nc : Nat} {err : Option String} {hdr : WriteOutcome}
    (h : (Action.serve (.hijacker (some nc) err) hdr).fresh t = true) :
    some nc ∉ t.events.map Event.transport := by
  simpa [Action.fresh] using h

theorem Owned_serve (preamble : List Byte) (w : ResponseWriter) (hdr : WriteOutcome)
    (t t1 : Sys) (ho : Owned t) (hfresh : (Action.serve w hdr).fresh t = true)
    (hs : step preamble (.serve w hdr) t = some t1) : Owned t1 := by
  rw [serve_spec] at hs
  cases hs
  rcases head_spec preamble w hdr t.toState with ⟨l, hl, htr, _, hcl, hwait⟩
  have hev : (ServeHTTP.head preamble w hdr t.toState).1.events = t.events ++ l := by rw [hl]
  have hpk : (ServeHTTP.head preamble w hdr t.toState).1.parked = t.parked := by rw [hl]
  have hcn : (ServeHTTP.head preamble w hdr t.toState).1.conns = t.conns := by rw [hl]
  have hch : (ServeHTTP.head preamble w hdr t.toState).1.chans = t.chans := by rw [hl]
  have hzero : ∀ nc, some nc ∈ t.events.map Event.transport → closeCount nc l = 0 := by
    intro nc hseen
    rw [closeCount, List.count_eq_zero]
    intro hm
    rcases htr _ hm nc rfl with ⟨err, rfl⟩
    exact fresh_unseen hfresh hseen
  have honce : ∀ nc, closeCount nc (t.events ++ l) ≤ 1 := by
    intro nc
    rw [closeCount_append]
    by_cases hz : closeCount nc l = 0
    · rw [hz]; exact ho.once nc
    · have hm : Event.connClose nc ∈ l := by
        by_contra hcon
        exact hz (by rw [closeCount, List.count_eq_zero]; exact hcon)
      rcases htr _ hm nc rfl with ⟨err, rfl⟩
      rw [closeCount_eq_zero_of_unseen (fresh_unseen hfresh), Nat.zero_add]
      exact hcl nc
  cases hh : (ServeHTTP.head preamble w hdr t.toState).2 with
  | waiting c0 =>
    rcases hwait c0 hh with ⟨⟨err, rfl⟩, hwrote, hnoclose⟩
    have hun := fresh_unseen hfresh
    refine ⟨?_, ?_, ?_, ?_, ?_, ?_, ?_⟩
    · intro e he; show e.2 ∈ _; rw [hpk]; exact ho.held e (hcn ▸ he)
    · show (List.map _ (ServeHTTP.head preamble _ hdr t.toState).1.parked ++
        (t.entering ++ [c0])).Nodup
      rw [hpk, ← List.append_assoc, List.nodup_append]
      refine ⟨ho.distinct, List.nodup_singleton _, ?_⟩
      intro x hx hx1
      rw [List.mem_singleton] at hx1
      exact hun (hx1 ▸ ho.seen x hx)
    · intro nc hnc
      have hnc1 : nc ∈ List.map (fun h => h.nc) t.parked ++ (t.entering ++ [c0]) := by
        rw [← hpk]; exact hnc
      show some nc ∈ List.map _ (ServeHTTP.head preamble _ hdr t.toState).1.events
      rw [hev, List.map_append, List.mem_append]
      rw [← List.append_assoc, List.mem_append, List.mem_singleton] at hnc1
      rcases hnc1 with hnc1 | rfl
      · exact Or.inl (ho.seen nc hnc1)
      · exact Or.inr (List.mem_map.mpr ⟨_, hwrote, rfl⟩)
    · intro nc hnc
      have hnc1 : nc ∈ List.map (fun h => h.nc) t.parked ++ (t.entering ++ [c0]) := by
        rw [← hpk]; exact hnc
      show closeCount nc (ServeHTTP.head preamble _ hdr t.toState).1.events = 0
      rw [hev, closeCount_append, hnoclose, Nat.add_zero]
      rw [← List.append_assoc, List.mem_append, List.mem_singleton] at hnc1
      rcases hnc1 with hnc1 | rfl
      · exact ho.unclosed nc hnc1
      · exact closeCount_eq_zero_of_unseen hun
    · intro nc
      show closeCount nc (ServeHTTP.head preamble _ hdr t.toState).1.events ≤ 1
      rw [hev]; exact honce nc
    · show (List.map _ (ServeHTTP.head preamble _ hdr t.toState).1.parked).Nodup
      rw [hpk]; exact ho.dones
    · intro x hx
      show x.done < (ServeHTTP.head preamble _ hdr t.toState).1.chans.length
      rw [hch]; exact ho.made x (hpk ▸ hx)
  | returned =>
    refine ⟨?_, ?_, ?_, ?_, ?_, ?_, ?_⟩
    · intro e he; show e.2 ∈ _; rw [hpk]; exact ho.held e (hcn ▸ he)
    · show (List.map _ (ServeHTTP.head preamble w hdr t.toState).1.parked ++
        (t.entering ++ [])).Nodup
      rw [hpk, List.append_nil]; exact ho.distinct
    · intro nc hnc
      have hnc1 : nc ∈ List.map (fun h => h.nc) t.parked ++ (t.entering ++ []) := by
        rw [← hpk]; exact hnc
      rw [List.append_nil] at hnc1
      show some nc ∈ List.map _ (ServeHTTP.head preamble w hdr t.toState).1.events
      rw [hev, List.map_append, List.mem_append]
      exact Or.inl (ho.seen nc hnc1)
    · intro nc hnc
      have hnc1 : nc ∈ List.map (fun h => h.nc) t.parked ++ (t.entering ++ []) := by
        rw [← hpk]; exact hnc
      rw [List.append_nil] at hnc1
      show closeCount nc (ServeHTTP.head preamble w hdr t.toState).1.events = 0
      rw [hev, closeCount_append, ho.unclosed nc hnc1, hzero nc (ho.seen nc hnc1)]
    · intro nc
      show closeCount nc (ServeHTTP.head preamble w hdr t.toState).1.events ≤ 1
      rw [hev]; exact honce nc
    · show (List.map _ (ServeHTTP.head preamble w hdr t.toState).1.parked).Nodup
      rw [hpk]; exact ho.dones
    · intro x hx
      show x.done < (ServeHTTP.head preamble w hdr t.toState).1.chans.length
      rw [hch]; exact ho.made x (hpk ▸ hx)
  | panicked =>
    refine ⟨?_, ?_, ?_, ?_, ?_, ?_, ?_⟩
    · intro e he; show e.2 ∈ _; rw [hpk]; exact ho.held e (hcn ▸ he)
    · show (List.map _ (ServeHTTP.head preamble w hdr t.toState).1.parked ++
        (t.entering ++ [])).Nodup
      rw [hpk, List.append_nil]; exact ho.distinct
    · intro nc hnc
      have hnc1 : nc ∈ List.map (fun h => h.nc) t.parked ++ (t.entering ++ []) := by
        rw [← hpk]; exact hnc
      rw [List.append_nil] at hnc1
      show some nc ∈ List.map _ (ServeHTTP.head preamble w hdr t.toState).1.events
      rw [hev, List.map_append, List.mem_append]
      exact Or.inl (ho.seen nc hnc1)
    · intro nc hnc
      have hnc1 : nc ∈ List.map (fun h => h.nc) t.parked ++ (t.entering ++ []) := by
        rw [← hpk]; exact hnc
      rw [List.append_nil] at hnc1
      show closeCount nc (ServeHTTP.head preamble w hdr t.toState).1.events = 0
      rw [hev, closeCount_append, ho.unclosed nc hnc1, hzero nc (ho.seen nc hnc1)]
    · intro nc
      show closeCount nc (ServeHTTP.head preamble w hdr t.toState).1.events ≤ 1
      rw [hev]; exact honce nc
    · show (List.map _ (ServeHTTP.head preamble w hdr t.toState).1.parked).Nodup
      rw [hpk]; exact ho.dones
    · intro x hx
      show x.done < (ServeHTTP.head preamble w hdr t.toState).1.chans.length
      rw [hch]; exact ho.made x (hpk ▸ hx)

theorem Owned_register (preamble : List Byte) (i : Nat) (t t1 : Sys)
    (ho : Owned t) (hs : step preamble (.register i) t = some t1) : Owned t1 := by
  rcases register_spec preamble i t t1 hs with ⟨_, c0, hi, rfl⟩
  have hc0 : c0 ∈ t.entering := List.mem_iff_getElem?.mpr ⟨i, hi⟩
  have hnd := List.nodup_append.mp ho.distinct
  have hsub : ∀ nc, nc ∈ List.map (fun h : conn => h.nc) (t.parked ++ [⟨c0, t.chans.length⟩]) ++
      t.entering.eraseIdx i → nc ∈ List.map (fun h => h.nc) t.parked ++ t.entering := by
    intro nc hnc
    simp only [List.map_append, List.map_cons, List.map_nil, List.mem_append,
      List.mem_singleton] at hnc
    rcases hnc with (hnc | rfl) | hnc
    · exact List.mem_append_left _ hnc
    · exact List.mem_append_right _ hc0
    · exact List.mem_append_right _ ((List.eraseIdx_sublist _ _).subset hnc)
  refine ⟨?_, ?_, ?_, ?_, ho.once, ?_, ?_⟩
  · intro e he
    have he1 : e ∈ mapSet t.conns t.nextid ⟨c0, t.chans.length⟩ := he
    show e.2 ∈ t.parked ++ [⟨c0, t.chans.length⟩]
    simp only [mapSet, List.mem_append, List.mem_singleton] at he1
    rcases he1 with he1 | rfl
    · exact List.mem_append_left _ (ho.held e (mem_mapDelete.mp he1).1)
    · exact List.mem_append_right _ (List.mem_singleton.mpr rfl)
  · show (List.map (fun h : conn => h.nc) (t.parked ++ [⟨c0, t.chans.length⟩]) ++
      t.entering.eraseIdx i).Nodup
    simp only [List.map_append, List.map_cons, List.map_nil, List.append_assoc,
      List.singleton_append]
    rw [List.nodup_append]
    refine ⟨hnd.1, ?_, ?_⟩
    · rw [List.nodup_cons]
      exact ⟨not_mem_eraseIdx_of_nodup hnd.2.1 hi, hnd.2.1.sublist (List.eraseIdx_sublist _ _)⟩
    · intro x hx hx1
      rw [List.mem_cons] at hx1
      rcases hx1 with rfl | hx1
      · exact hnd.2.2 hx hc0
      · exact hnd.2.2 hx ((List.eraseIdx_sublist _ _).subset hx1)
  · intro nc hnc; exact ho.seen nc (hsub nc hnc)
  · intro nc hnc; exact ho.unclosed nc (hsub nc hnc)
  · show (List.map (fun h : conn => h.done) (t.parked ++ [⟨c0, t.chans.length⟩])).Nodup
    simp only [List.map_append, List.map_cons, List.map_nil]
    rw [List.nodup_append]
    refine ⟨ho.dones, List.nodup_singleton _, ?_⟩
    intro d hd hd1
    rw [List.mem_singleton] at hd1
    rcases List.mem_map.mp hd with ⟨x, hx, rfl⟩
    have := ho.made x hx
    omega
  · intro x hx
    have hx1 : x ∈ t.parked ++ [⟨c0, t.chans.length⟩] := hx
    show x.done < (t.chans ++ [0]).length
    rw [List.length_append, List.length_singleton]
    rw [List.mem_append, List.mem_singleton] at hx1
    rcases hx1 with hx1 | rfl
    · have := ho.made x hx1; omega
    · exact Nat.lt_succ_self _

theorem Owned_iter (preamble : List Byte) (res : WriteOutcome) (t t1 : Sys) (h : SysInv t)
    (ho : Owned t) (hs : step preamble (.iter res) t = some t1) : Owned t1 := by
  rcases iter_pass preamble res t t1 hs with ⟨p, e, es, hp⟩
  rw [iter_spec preamble p res t h e es hp] at hs
  by_cases hf : res.failed = true
  · simp only [hf, if_true, Option.some.injEq] at hs
    subst hs
    have hcount : ∀ nc, closeCount nc
        (t.events ++ [Event.connWrite e.2.nc p res, Event.chanSend e.2.done]) =
        closeCount nc t.events := by
      intro nc; simp [closeCount]
    refine ⟨?_, ho.distinct, ?_, ?_, ?_, ho.dones, ?_⟩
    · intro x hx; exact ho.held x (mem_mapDelete.mp hx).1
    · intro nc hnc
      show some nc ∈ List.map Event.transport (t.events ++ _)
      rw [List.map_append, List.mem_append]
      exact Or.inl (ho.seen nc hnc)
    · intro nc hnc; show closeCount nc (t.events ++ _) = 0; rw [hcount]
      exact ho.unclosed nc hnc
    · intro nc; show closeCount nc (t.events ++ _) ≤ 1; rw [hcount]; exact ho.once nc
    · intro x hx
      show x.done < (t.chans.set e.2.done 1).length
      rw [List.length_set]; exact ho.made x hx
  · simp only [hf, Bool.false_eq_true, if_false, Option.some.injEq] at hs
    subst hs
    have hcount : ∀ nc, closeCount nc (t.events ++ [Event.connWrite e.2.nc p res]) =
        closeCount nc t.events := by
      intro nc; simp [closeCount]
    refine ⟨ho.held, ho.distinct, ?_, ?_, ?_, ho.dones, ho.made⟩
    · intro nc hnc
      show some nc ∈ List.map Event.transport (t.events ++ _)
      rw [List.map_append, List.mem_append]
      exact Or.inl (ho.seen nc hnc)
    · intro nc hnc; show closeCount nc (t.events ++ _) = 0; rw [hcount]
      exact ho.unclosed nc hnc
    · intro nc; show closeCount nc (t.events ++ _) ≤ 1; rw [hcount]; exact ho.once nc

theorem Owned_resume (preamble : List Byte) (i : Nat) (t t1 : Sys) (h : SysInv t)
    (ho : Owned t) (hs : step preamble (.resume i) t = some t1) : Owned t1 := by
  rcases resume_step_spec preamble i t t1 hs with ⟨c0, k, hi, hk, rfl⟩
  have hc0 : c0 ∈ t.parked := List.mem_iff_getElem?.mpr ⟨i, hi⟩
  have hnd := List.nodup_append.mp ho.distinct
  have hcount : ∀ nc, closeCount nc (t.events ++ [.chanRecv c0.done, .connClose c0.nc]) =
      closeCount nc t.events + if c0.nc = nc then 1 else 0 := by
    intro nc; rw [closeCount_append, closeCount_recv_close]
  have hne : ∀ nc, nc ∈ List.map (fun h => h.nc) (t.parked.eraseIdx i) ++ t.entering →
      c0.nc ≠ nc := by
    intro nc hnc heq
    rw [List.mem_append] at hnc
    rcases hnc with hnc | hnc
    · rcases List.mem_map.mp hnc with ⟨x, hx, hxn⟩
      exact ne_of_mem_eraseIdx_map (fun h => h.nc) hnd.1 hi hx (hxn.trans heq.symm)
    · exact hnd.2.2 (List.mem_map.mpr ⟨c0, hc0, rfl⟩) (heq ▸ hnc)
  have hold : ∀ nc, nc ∈ List.map (fun h => h.nc) (t.parked.eraseIdx i) ++ t.entering →
      nc ∈ List.map (fun h => h.nc) t.parked ++ t.entering := by
    intro nc hnc
    rw [List.mem_append] at hnc ⊢
    rcases hnc with hnc | hnc
    · exact Or.inl (((List.eraseIdx_sublist _ _).map _).subset hnc)
    · exact Or.inr hnc
  refine ⟨?_, ?_, ?_, ?_, ?_, ?_, ?_⟩
  · intro e he
    have he0 := h.inv.ready e he
    rcases List.mem_iff_getElem?.mp (ho.held e he) with ⟨j, hj⟩
    refine List.mem_eraseIdx_iff_getElem?.mpr ⟨j, ?_, hj⟩
    intro hji
    subst hji
    rw [hi] at hj
    cases hj
    rw [he0] at hk
    cases hk
  · exact ho.distinct.sublist (((List.eraseIdx_sublist _ _).map _).append_right _)
  · intro nc hnc
    show some nc ∈ List.map Event.transport (t.events ++ _)
    rw [List.map_append, List.mem_append]
    exact Or.inl (ho.seen nc (hold nc hnc))
  · intro nc hnc
    show closeCount nc (t.events ++ _) = 0
    rw [hcount, ho.unclosed nc (hold nc hnc), if_neg (hne nc hnc)]
  · intro nc
    show closeCount nc (t.events ++ _) ≤ 1
    rw [hcount]
    by_cases heq : c0.nc = nc
    · subst heq
      rw [ho.unclosed c0.nc (List.mem_append_left _ (List.mem_map.mpr ⟨c0, hc0, rfl⟩))]
      simp
    · simpa [heq] using ho.once nc
  · exact ho.dones.sublist ((List.eraseIdx_sublist _ _).map _)
  · intro x hx
    show x.done < (t.chans.set c0.done k).length
    rw [List.length_set]
    exact ho.made x ((List.eraseIdx_sublist _ _).subset hx)

theorem Owned_step (preamble : List Byte) (a : Action) (t t1 : Sys) (h : SysInv t)
    (ho : Owned t) (hfresh : a.fresh t = true) (hs : step preamble a t = some t1) :
    Owned t1 := by
  cases a with
  | serve w hdr => exact Owned_serve preamble w hdr t t1 ho hfresh hs
  | register i => exact Owned_register preamble i t t1 ho hs
  | lock p ord =>
    rcases lock_spec preamble p ord t t1 hs with ⟨_, rfl⟩
    exact ⟨ho.held, ho.distinct, ho.seen, ho.unclosed, ho.once, ho.dones, ho.made⟩
  | iter res => exact Owned_iter preamble res t t1 h ho hs
  | unlock =>
    rcases unlock_spec preamble t t1 hs with ⟨_, rfl⟩
    exact ⟨ho.held, ho.distinct, ho.seen, ho.unclosed, ho.once, ho.dones, ho.made⟩
  | resume i => exact Owned_resume preamble i t t1 h ho hs

theorem Owned_boot : Owned boot :=
  ⟨fun _ h => (nomatch h), List.nodup_nil, fun _ h => (nomatch h), fun _ h => (nomatch h),
    fun _ => Nat.zero_le _, List.nodup_nil, fun _ h => (nomatch h)⟩

theorem Released_step (preamble : List Byte) (c : conn) (a : Action) (t t1 : Sys)
    (h : SysInv t) (ho : Owned t) (hr : Released c t) (hs : step preamble a t = some t1) :
    Released c t1 := by
  cases a with
  | serve w hdr =>
    rw [serve_spec] at hs
    cases hs
    rcases head_spec preamble w hdr t.toState with ⟨l, hl, _⟩
    refine ⟨?_, ?_, ?_⟩
    · show ∀ x ∈ (ServeHTTP.head preamble w hdr t.toState).1.conns, x.2 ≠ c
      rw [hl]; exact hr.out
    · show c.done < (ServeHTTP.head preamble w hdr t.toState).1.chans.length
      rw [hl]; exact hr.made
    · show c ∈ (ServeHTTP.head preamble w hdr t.toState).1.parked →
        (ServeHTTP.head preamble w hdr t.toState).1.chans[c.done]? = some 1
      rw [hl]; exact hr.signal
  | register i =>
    rcases register_spec preamble i t t1 hs with ⟨_, c0, _, rfl⟩
    have hne : (⟨c0, t.chans.length⟩ : conn) ≠ c := by
      intro heq
      have := hr.made
      rw [← heq] at this
      exact Nat.lt_irrefl _ this
    refine ⟨?_, ?_, ?_⟩
    · intro x hx
      have hx1 : x ∈ mapSet t.conns t.nextid ⟨c0, t.chans.length⟩ := hx
      simp only [mapSet, List.mem_append, List.mem_singleton] at hx1
      rcases hx1 with hx1 | rfl
      · exact hr.out x (mem_mapDelete.mp hx1).1
      · exact hne
    · show c.done < (t.chans ++ [0]).length
      rw [List.length_append]; have := hr.made; omega
    · intro hc
      have hc1 : c ∈ t.parked ++ [⟨c0, t.chans.length⟩] := hc
      rw [List.mem_append, List.mem_singleton] at hc1
      rcases hc1 with hc1 | hc1
      · show (t.chans ++ [0])[c.done]? = some 1
        rw [List.getElem?_append_left hr.made]; exact hr.signal hc1
      · exact absurd hc1.symm hne
  | lock p ord =>
    rcases lock_spec preamble p ord t t1 hs with ⟨_, rfl⟩
    exact ⟨hr.out, hr.made, hr.signal⟩
  | iter res =>
    rcases iter_pass preamble res t t1 hs with ⟨p, e, es, hp⟩
    rw [iter_spec preamble p res t h e es hp] at hs
    have he : e ∈ t.conns := (h.todo p _ hp).2 e (List.mem_cons_self _ _)
    by_cases hf : res.failed = true
    · simp only [hf, if_true, Option.some.injEq] at hs
      subst hs
      refine ⟨fun x hx => hr.out x (mem_mapDelete.mp hx).1, ?_, ?_⟩
      · show c.done < (t.chans.set e.2.done 1).length
        rw [List.length_set]; exact hr.made
      · intro hc
        have h1 := hr.signal hc
        have hne : e.2.done ≠ c.done := by
          intro heq
          have h0 := h.inv.ready e he
          rw [heq, h1] at h0
          cases h0
        show (t.chans.set e.2.done 1)[c.done]? = some 1
        rw [List.getElem?_set_ne hne]; exact h1
    · simp only [hf, Bool.false_eq_true, if_false, Option.some.injEq] at hs
      subst hs
      exact ⟨hr.out, hr.made, hr.signal⟩
  | unlock =>
    rcases unlock_spec preamble t t1 hs with ⟨_, rfl⟩
    exact ⟨hr.out, hr.made, hr.signal⟩
  | resume i =>
    rcases resume_step_spec preamble i t t1 hs with ⟨c0, k, hi, _, rfl⟩
    refine ⟨hr.out, ?_, ?_⟩
    · show c.done < (t.chans.set c0.done k).length
      rw [List.length_set]; exact hr.made
    · intro hc
      have hc1 : c ∈ t.parked.eraseIdx i := hc
      have hne : c0.done ≠ c.done :=
        (ne_of_mem_eraseIdx_map (fun h => h.done) ho.dones hi hc1).symm
      show (t.chans.set c0.done k)[c.done]? = some 1
      rw [List.getElem?_set_ne hne]
      exact hr.signal ((List.eraseIdx_sublist _ _).subset hc1)

theorem Owned_runFresh (preamble : List Byte) :
    ∀ (as : List Action) (t t1 : Sys), SysInv t → Owned t →
      runFresh preamble as t = some t1 → SysInv t1 ∧ Owned t1 := by
  intro as
  induction as with
  | nil =>
    intro t t1 h ho hr
    simp only [runFresh, Option.some.injEq] at hr
    exact hr ▸ ⟨h, ho⟩
  | cons a as ih =>
    intro t t1 h ho hr
    simp only [runFresh] at hr
    split at hr
    · rename_i hfresh
      simp only [Option.bind_eq_some] at hr
      rcases hr with ⟨t0, hs0, hr⟩
      exact ih t0 t1 (SysInv_step preamble a t t0 h hs0)
        (Owned_step preamble a t t0 h ho hfresh hs0) hr
    · cases hr

theorem Released_runFresh (preamble : List Byte) (c : conn) :
    ∀ (as : List Action) (t t1 : Sys), SysInv t → Owned t → Released c t →
      runFresh preamble as t = some t1 → SysInv t1 ∧ Owned t1 ∧ Released c t1 := by
  intro as
  induction as with
  | nil =>
    intro t t1 h ho hrel hr
    simp only [runFresh, Option.some.injEq] at hr
    exact hr ▸ ⟨h, ho, hrel⟩
  | cons a as ih =>
    intro t t1 h ho hrel hr
    simp only [runFresh] at hr
    split at hr
    · rename_i hfresh
      simp only [Option.bind_eq_some] at hr
      rcases hr with ⟨t0, hs0, hr⟩
      exact ih t0 t1 (SysInv_step preamble a t t0 h hs0)
        (Owned_step preamble a t t0 h ho hfresh hs0)
        (Released_step preamble c a t t0 h ho hrel hs0) hr
    · cases hr

/-- C8: in every state the system reaches from `New()` (every hijacked
transport being a new one, the schedule arbitrary), a registered connection has
not had its transport closed.  When an iteration of a `Write` loop evicts a
connection because its write failed, the identifier keys no entry any more, the
completion signal was sent, and the `ServeHTTP` call of the connection is
suspended on a channel that holds the signal.  From then on, whatever the
system does, the connection is never registered again and its transport is
closed at most once; as long as the call is still suspended the transport is
not closed and the call can resume, and resuming it receives the signal,
closes the transport (the close count becomes exactly 1) and ends the call. -/
theorem eviction_paired_with_close (preamble : List Byte) (as : List Action) (t : Sys)
    (hrun : runFresh preamble as boot = some t) :
    (∀ e ∈ t.conns, closeCount e.2.nc t.events = 0) ∧
    ∀ (p : List Byte) (e : Int × conn) (es : List (Int × conn)) (res : WriteOutcome),
      t.pass = some (p, e :: es) → res.failed = true →
      ∃ t1, step preamble (.iter res) t = some t1 ∧
        mapHas t1.conns e.1 = false ∧
        Event.chanSend e.2.done ∈ t1.events ∧
        e.2 ∈ t1.parked ∧ t1.chans[e.2.done]? = some 1 ∧
        ∀ (bs : List Action) (t2 : Sys), runFresh preamble bs t1 = some t2 →
          (∀ x ∈ t2.conns, x.2 ≠ e.2) ∧
          closeCount e.2.nc t2.events ≤ 1 ∧
          (e.2 ∈ t2.parked →
            closeCount e.2.nc t2.events = 0 ∧
            ∃ i t3, t2.parked[i]? = some e.2 ∧ step preamble (.resume i) t2 = some t3 ∧
              closeCount e.2.nc t3.events = 1 ∧ e.2 ∉ t3.parked) := by
  rcases Owned_runFresh preamble as boot t SysInv_boot Owned_boot hrun with ⟨h, ho⟩
  have hpk : ∀ c0 ∈ t.parked, c0.nc ∈ List.map (fun h => h.nc) t.parked ++ t.entering :=
    fun c0 hc0 => List.mem_append_left _ (List.mem_map.mpr ⟨c0, hc0, rfl⟩)
  refine ⟨fun e he => ho.unclosed e.2.nc (hpk e.2 (ho.held e he)), ?_⟩
  intro p e es res hp hf
  have he : e ∈ t.conns := (h.todo p _ hp).2 e (List.mem_cons_self _ _)
  have hstep := iter_spec preamble p res t h e es hp
  simp only [hf, if_true] at hstep
  have hready := h.inv.ready e he
  have hinv1 := SysInv_step preamble _ t _ h hstep
  have ho1 := Owned_iter preamble res t _ h ho hstep
  have hsig : (t.chans.set e.2.done 1)[e.2.done]? = some 1 := by
    rw [List.getElem?_set_self (lt_of_getElem?_eq_some hready)]
  have hrel : Released e.2
      { t with conns := mapDelete t.conns e.1, chans := t.chans.set e.2.done 1,
               events := t.events ++ [.connWrite e.2.nc p res, .chanSend e.2.done],
               pass := some (p, es) } := by
    refine ⟨?_, ?_, fun _ => hsig⟩
    · intro x hx heq
      have hx1 := mem_mapDelete.mp hx
      exact hx1.2 (congrArg Prod.fst
        (mem_eq_of_done h.inv.dones hx1.1 he (congrArg conn.done heq)))
    · show e.2.done < (t.chans.set e.2.done 1).length
      rw [List.length_set]; exact lt_of_getElem?_eq_some hready
  refine ⟨_, hstep, ?_, ?_, ho.held e he, hsig, ?_⟩
  · simp only [mapHas, Bool.eq_false_iff, ne_eq, List.any_eq_true, decide_eq_true_eq,
      not_exists, not_and]
    intro x hx hxe
    exact (mem_mapDelete.mp hx).2 hxe
  · show Event.chanSend e.2.done ∈ t.events ++ _
    simp
  · intro bs t2 hr
    rcases Released_runFresh preamble e.2 bs _ t2 hinv1 ho1 hrel hr with ⟨h2, ho2, hrel2⟩
    refine ⟨hrel2.out, ho2.once _, ?_⟩
    intro hparked
    have hzero : closeCount e.2.nc t2.events = 0 :=
      ho2.unclosed _ (List.mem_append_left _ (List.mem_map.mpr ⟨e.2, hparked, rfl⟩))
    rcases List.mem_iff_getElem?.mp hparked with ⟨i, hi⟩
    have hres : resume i t2.toState = some
        { t2.toState with chans := t2.chans.set e.2.done 0, parked := t2.parked.eraseIdx i,
                          events := t2.events ++ [.chanRecv e.2.done, .connClose e.2.nc] } := by
      simp only [resume, hi, hrel2.signal hparked, State.emit, List.append_assoc,
        List.singleton_append]
    have hstep3 : step preamble (.resume i) t2 = some
        { t2 with chans := t2.chans.set e.2.done 0, parked := t2.parked.eraseIdx i,
                  events := t2.events ++ [.chanRecv e.2.done, .connClose e.2.nc] } := by
      simp only [step, hres, Option.map_some']
    refine ⟨hzero, i, _, hi, hstep3, ?_, ?_⟩
    · show closeCount e.2.nc (t2.events ++ _) = 1
      rw [closeCount_append, hzero, closeCount_recv_close]
      simp
    · intro hmem
      exact ne_of_mem_eraseIdx_map (fun h => h.done) ho2.dones hi hmem rfl

theorem eviction_paired_with_close_witness :
    runFresh sampleHeader lockA boot = some lockedA ∧
    ((∀ e ∈ lockedA.conns, closeCount e.2.nc lockedA.events = 0) ∧
    ∀ (p : List Byte) (e : Int × conn) (es : List (Int × conn)) (res : WriteOutcome),
      lockedA.pass = some (p, e :: es) → res.failed = true →
      ∃ t1, step sampleHeader (.iter res) lockedA = some t1 ∧
        mapHas t1.conns e.1 = false ∧
        Event.chanSend e.2.done ∈ t1.events ∧
        e.2 ∈ t1.parked ∧ t1.chans[e.2.done]? = some 1 ∧
        ∀ (bs : List Action) (t2 : Sys), runFresh sampleHeader bs t1 = some t2 →
          (∀ x ∈ t2.conns, x.2 ≠ e.2) ∧
          closeCount e.2.nc t2.events ≤ 1 ∧
          (e.2 ∈ t2.parked →
            closeCount e.2.nc t2.events = 0 ∧
            ∃ i t3, t2.parked[i]? = some e.2 ∧ step sampleHeader (.resume i) t2 = some t3 ∧
              closeCount e.2.nc t3.events = 1 ∧ e.2 ∉ t3.parked)) :=
  ⟨rfl, eviction_paired_with_close sampleHeader lockA lockedA rfl⟩

/-! ## Identifiers -/

theorem wrap64_succ (k : Int) : wrap64 (wrap64 k + 1) = wrap64 (k + 1) := by
  unfold wrap64; omega

theorem wrap64_of_lt (n : Nat) (h : n < 2 ^ 63) : wrap64 (n : Int) = n := by
  unfold wrap64; omega

theorem keysOf_register {s : State} (h : Inv s) (k : Int) (nc : Nat) :
    keysOf (mapSet s.conns k ⟨nc, s.chans.length⟩) s.chans.length = [k] := by
  have hold : (mapDelete s.conns k).filter (fun e => e.2.done = s.chans.length) = [] := by
    rw [List.filter_eq_nil_iff]
    intro x hx
    have := lt_of_getElem?_eq_some (h.ready x (mem_mapDelete.mp hx).1)
    simp only [decide_eq_true_eq]
    omega
  simp [keysOf, mapSet, List.filter_append, hold]

theorem step_nextid (preamble : List Byte) (a : Action) (t t1 : Sys) (h : SysInv t)
    (ha : ∀ i, a ≠ .register i) (hs : step preamble a t = some t1) :
    t1.nextid = t.nextid := by
  cases a with
  | serve w hdr =>
    rw [serve_spec] at hs
    cases hs
    rcases head_spec preamble w hdr t.toState with ⟨l, hl, _⟩
    show (ServeHTTP.head preamble w hdr t.toState).1.nextid = t.nextid
    rw [hl]
  | register i => exact absurd rfl (ha i)
  | lock p ord =>
    rcases lock_spec preamble p ord t t1 hs with ⟨_, rfl⟩
    rfl
  | iter res =>
    rcases iter_pass preamble res t t1 hs with ⟨p, e, es, hp⟩
    rw [iter_spec preamble p res t h e es hp] at hs
    by_cases hf : res.failed = true
    · simp only [hf, if_true, Option.some.injEq] at hs
      subst hs; rfl
    · simp only [hf, Bool.false_eq_true, if_false, Option.some.injEq] at hs
      subst hs; rfl
  | unlock =>
    rcases unlock_spec preamble t t1 hs with ⟨_, rfl⟩
    rfl
  | resume i =>
    rcases resume_step_spec preamble i t t1 hs with ⟨c0, k, _, _, rfl⟩
    rfl

theorem assigned_spec (preamble : List Byte) :
    ∀ (as : List Action) (t : Sys) (k : Int), SysInv t → t.nextid = wrap64 k →
      assigned preamble as t =
        (List.range (admitted preamble as t)).map (fun i : Nat => wrap64 (k + i)) ∧
      ∀ t1, run preamble as t = some t1 →
        t1.nextid = wrap64 (k + admitted preamble as t) := by
  intro as
  induction as with
  | nil =>
    intro t k _ hk
    refine ⟨rfl, ?_⟩
    intro t1 hr
    simp only [run, Option.some.injEq] at hr
    subst hr
    simpa [admitted] using hk
  | cons a as ih =>
    intro t k h hk
    cases hstep : step preamble a t with
    | none =>
      refine ⟨by simp [assigned, admitted, hstep], ?_⟩
      intro t1 hr
      simp [run, hstep] at hr
    | some t0 =>
      have h0 := SysInv_step preamble a t t0 h hstep
      by_cases hreg : ∃ i, a = .register i
      · rcases hreg with ⟨i, rfl⟩
        rcases register_spec preamble i t t0 hstep with ⟨_, nc, _, ht0⟩
        have hk1 : t0.nextid = wrap64 (k + 1) := by
          rw [ht0]
          show wrap64 (t.nextid + 1) = wrap64 (k + 1)
          rw [hk, wrap64_succ]
        have hkeys : keysOf t0.conns t.chans.length = [t.nextid] := by
          rw [ht0]
          exact keysOf_register h.inv t.nextid nc
        rcases ih t0 (k + 1) h0 hk1 with ⟨ha1, ha2⟩
        refine ⟨?_, ?_⟩
        · simp only [assigned, admitted, hstep, hkeys, ha1, List.singleton_append]
          rw [Nat.add_comm 1, List.range_succ_eq_map, List.map_cons, List.map_map]
          congr 1
          · rw [hk, Nat.cast_zero, Int.add_zero]
          · apply List.map_congr_left
            intro j _
            simp only [Function.comp_apply, Nat.succ_eq_add_one, Nat.cast_add, Nat.cast_one]
            congr 1; omega
        · intro t1 hr
          simp only [run, hstep, Option.some_bind] at hr
          rw [ha2 t1 hr]
          simp only [admitted, hstep]
          congr 1; push_cast; omega
      · have hreg1 : ∀ i, a ≠ .register i := fun i hi => hreg ⟨i, hi⟩
        have hn0 := step_nextid preamble a t t0 h hreg1 hstep
        rcases ih t0 k h0 (hn0.trans hk) with ⟨ha1, ha2⟩
        have hass : assigned preamble (a :: as) t = assigned preamble as t0 := by
          cases a with
          | register i => exact absurd rfl (hreg1 i)
          | _ => simp [assigned, hstep]
        have hadm : admitted preamble (a :: as) t = admitted preamble as t0 := by
          cases a with
          | register i => exact absurd rfl (hreg1 i)
          | _ => simp [admitted, hstep]
        refine ⟨by rw [hass, hadm, ha1], ?_⟩
        intro t1 hr
        simp only [run, hstep, Option.some_bind] at hr
        rw [hadm]
        exact ha2 t1 hr

theorem assigned_from_boot (preamble : List Byte) (as : List Action) :
    assigned preamble as boot =
      (List.range (admitted preamble as boot)).map (fun i : Nat => wrap64 i) ∧
    ∀ t, run preamble as boot = some t → t.nextid = wrap64 (admitted preamble as boot) := by
  rcases assigned_spec preamble as boot 0 SysInv_boot rfl with ⟨h1, h2⟩
  constructor
  · rw [h1]; simp
  · intro t hr; simpa using h2 t hr

theorem admitted_append (preamble : List Byte) :
    ∀ (as bs : List Action) (t t1 : Sys), run preamble as t = some t1 →
      admitted preamble (as ++ bs) t = admitted preamble as t + admitted preamble bs t1 := by
  intro as
  induction as with
  | nil =>
    intro bs t t1 hr
    simp only [run, Option.some.injEq] at hr
    subst hr
    simp [admitted]
  | cons a as ih =>
    intro bs t t1 hr
    simp only [run, Option.bind_eq_some] at hr
    rcases hr with ⟨t0, hs0, hr⟩
    simp only [List.cons_append, admitted, hs0]
    rw [Nat.add_assoc]
    congr 1
    exact ih bs t0 t1 hr

theorem cycle_run (preamble : List Byte) (i : Nat) (t : Sys) (hq : t.quiet) :
    ∃ t1, run preamble (cycle i) t = some t1 ∧ t1.quiet ∧
      admitted preamble (cycle i) t = 1 := by
  rcases t with ⟨⟨⟨lg, nid, conns⟩, chans, parked, events⟩, pass, ent⟩
  rcases hq with ⟨h1, h2, h3, h4⟩
  simp only at h1 h2 h3 h4
  subst h1 h2 h3 h4
  simp [run, cycle, admitted, step, ServeHTTP.head, ServeHTTP.register, hijackOk, State.emit,
    mapSet, mapDelete, mapHas, Write.body, WriteOutcome.failed, RangeOrder.listed, resume,
    Sys.quiet]

theorem churn_run (preamble : List Byte) :
    ∀ (is : List Nat) (t : Sys), t.quiet →
      ∃ t1, run preamble (is.flatMap cycle) t = some t1 ∧ t1.quiet ∧
        admitted preamble (is.flatMap cycle) t = is.length := by
  intro is
  induction is with
  | nil => intro t hq; exact ⟨t, rfl, hq, rfl⟩
  | cons i is ih =>
    intro t hq
    rcases cycle_run preamble i t hq with ⟨t0, hr0, hq0, ha0⟩
    rcases ih t0 hq0 with ⟨t1, hr1, hq1, ha1⟩
    refine ⟨t1, ?_, hq1, ?_⟩
    · rw [List.flatMap_cons, run_append, hr0, Option.some_bind, hr1]
    · rw [List.flatMap_cons, admitted_append preamble _ _ t t0 hr0, ha0, ha1,
        List.length_cons, Nat.add_comm]

theorem assigned_churn (n : Nat) :
    assigned sampleHeader (churn n) boot = (List.range n).map (fun i : Nat => wrap64 i) := by
  rcases churn_run sampleHeader (List.range n) boot ⟨rfl, rfl, rfl, rfl⟩ with ⟨_, _, _, ha⟩
  have := (assigned_from_boot sampleHeader (churn n)).1
  rw [churn, ha, List.length_range] at this
  exact this

theorem wrapped_getElem? (n i : Nat) (h : i < n) :
    ((List.range n).map (fun i : Nat => wrap64 i))[i]? = some (wrap64 i) := by
  rw [List.getElem?_map, List.getElem?_range h]; rfl

/-- C4 (as stated, refuted): take connections one after the other from
`New()`, each admitted, evicted by a failing `Write` and closed before the next
arrives.  With 2^63 + 1 of them, the admission number 2^63 gets the identifier
2^63 - 1 and the next one gets -2^63, so the identifiers are not strictly
increasing; with 2^64 + 1 of them, the last one gets the identifier 0 of the
first, so the identifiers are not pairwise distinct. -/
theorem ids_not_increasing_after_wrap :
    ((assigned sampleHeader (churn (2 ^ 63 + 1)) boot)[2 ^ 63 - 1]? = some (2 ^ 63 - 1) ∧
     (assigned sampleHeader (churn (2 ^ 63 + 1)) boot)[2 ^ 63]? = some (-2 ^ 63) ∧
     ¬ (assigned sampleHeader (churn (2 ^ 63 + 1)) boot).Pairwise (· < ·)) ∧
    ((assigned sampleHeader (churn (2 ^ 64 + 1)) boot)[0]? = some 0 ∧
     (assigned sampleHeader (churn (2 ^ 64 + 1)) boot)[2 ^ 64]? = some 0 ∧
     ¬ (assigned sampleHeader (churn (2 ^ 64 + 1)) boot).Nodup) := by
  rw [assigned_churn, assigned_churn]
  have h1 : ((List.range (2 ^ 63 + 1)).map (fun i : Nat => wrap64 i))[2 ^ 63 - 1]? =
      some (2 ^ 63 - 1) := by
    rw [wrapped_getElem? _ _ (by omega)]
    simp only [Option.some.injEq]
    unfold wrap64; omega
  have h2 : ((List.range (2 ^ 63 + 1)).map (fun i : Nat => wrap64 i))[2 ^ 63]? =
      some (-2 ^ 63) := by
    rw [wrapped_getElem? _ _ (by omega)]
    simp only [Option.some.injEq]
    unfold wrap64; omega
  have h3 : ((List.range (2 ^ 64 + 1)).map (fun i : Nat => wrap64 i))[0]? = some 0 := by
    rw [wrapped_getElem? _ _ (by omega)]
    simp only [Option.some.injEq]
    unfold wrap64; omega
  have h4 : ((List.range (2 ^ 64 + 1)).map (fun i : Nat => wrap64 i))[2 ^ 64]? = some 0 := by
    rw [wrapped_getElem? _ _ (by omega)]
    simp only [Option.some.injEq]
    unfold wrap64; omega
  refine ⟨⟨h1, h2, ?_⟩, h3, h4, ?_⟩
  · intro hp
    have hlen : ((List.range (2 ^ 63 + 1)).map (fun i : Nat => wrap64 i)).length =
        2 ^ 63 + 1 := by
      rw [List.length_map, List.length_range]
    have hlt := List.pairwise_iff_getElem.mp hp (2 ^ 63 - 1) (2 ^ 63)
      (by rw [hlen]; omega) (by rw [hlen]; omega) (by omega)
    rw [List.getElem_eq_iff.mpr h1, List.getElem_eq_iff.mpr h2] at hlt
    omega
  · intro hnd
    have hlen : ((List.range (2 ^ 64 + 1)).map (fun i : Nat => wrap64 i)).length =
        2 ^ 64 + 1 := by
      rw [List.length_map, List.length_range]
    have hne := List.nodup_iff_getElem?_ne_getElem?.mp hnd 0 (2 ^ 64) (by omega)
      (by rw [hlen]; omega)
    exact hne (h3.trans h4.symm)

/-- C4 (amended): in every run of the system from `New()`, whatever the
schedule, the `k`-th admission (counting from 0) registers its connection under
the identifier `k` wrapped to `int64`: the counter is an `int64` incremented by
one per admission.  Hence the identifiers are strictly increasing in admission
order as long as there are at most 2^63 admissions, and pairwise distinct as
long as there are at most 2^64; and no identifier ever keys two entries of the
registry at once. -/
theorem ids_increasing_below_wrap (preamble : List Byte) (as : List Action) (t : Sys)
    (hrun : run preamble as boot = some t) :
    assigned preamble as boot =
      (List.range (admitted preamble as boot)).map (fun i : Nat => wrap64 i) ∧
    (admitted preamble as boot ≤ 2 ^ 63 → (assigned preamble as boot).Pairwise (· < ·)) ∧
    (admitted preamble as boot ≤ 2 ^ 64 → (assigned preamble as boot).Nodup) ∧
    t.nextid = wrap64 (admitted preamble as boot) ∧
    (t.conns.map Prod.fst).Nodup := by
  have hspec := assigned_from_boot preamble as
  refine ⟨hspec.1, ?_, ?_, hspec.2 t hrun, (SysInv_run preamble as boot t SysInv_boot hrun).inv.keys⟩
  · intro hN
    rw [hspec.1, List.pairwise_map]
    refine (List.pairwise_lt_range _).imp_of_mem ?_
    intro i j hi hj hij
    have hi1 := List.mem_range.mp hi
    have hj1 := List.mem_range.mp hj
    rw [wrap64_of_lt i (by omega), wrap64_of_lt j (by omega)]
    exact_mod_cast hij
  · intro hN
    rw [hspec.1]
    refine List.Nodup.map_on ?_ (List.nodup_range _)
    intro i hi j hj hij
    have hi1 := List.mem_range.mp hi
    have hj1 := List.mem_range.mp hj
    unfold wrap64 at hij
    omega

theorem ids_increasing_below_wrap_witness :
    run sampleHeader admitAB boot = some (Sys.idle admittedAB []) ∧
    (assigned sampleHeader admitAB boot =
      (List.range (admitted sampleHeader admitAB boot)).map (fun i : Nat => wrap64 i) ∧
    (admitted sampleHeader admitAB boot ≤ 2 ^ 63 →
      (assigned sampleHeader admitAB boot).Pairwise (· < ·)) ∧
    (admitted sampleHeader admitAB boot ≤ 2 ^ 64 →
      (assigned sampleHeader admitAB boot).Nodup) ∧
    (Sys.idle admittedAB []).nextid = wrap64 (admitted sampleHeader admitAB boot) ∧
    ((Sys.idle admittedAB []).conns.map Prod.fst).Nodup) :=
  ⟨rfl, ids_increasing_below_wrap sampleHeader admitAB (Sys.idle admittedAB []) rfl⟩

end Longpoll
